import Mathlib

/-!
Verification development for the plotz plotting / PNG-encoding library.

The C++ sources are shallowly embedded: machine bytes are natural numbers
with explicit reduction modulo 256 or 2^32 where the code's unsigned
arithmetic wraps, and the library's binary32 float arithmetic is modelled by
exact rational arithmetic.  Every concrete input appearing in a theorem
below keeps all of its intermediate float computations exactly representable
in binary32 (small integers, quarters, halves), so on those inputs the
rational model computes exactly what the C++ float code computes.
-/

set_option maxRecDepth 100000

namespace Plotz

attribute [local semireducible] Rat.inv Rat.mul Rat.add Rat.sub Rat.ofScientific

/-- RGBA color with four 8-bit channels (src/include/plotz/color_scheme.hpp,
`using rgba = std::array of 4 uint8_t`). -/
structure rgba where
  r : ℕ
  g : ℕ
  b : ℕ
  a : ℕ
deriving DecidableEq, Repr

/-- Channel selector: channel 0 is red, 1 green, 2 blue, 3 alpha. -/
def rgba.chan (c : rgba) (i : ℕ) : ℕ :=
  [c.r, c.g, c.b, c.a].getD i 0

/-- C cast of a nonnegative float value to an unsigned integer: truncation
toward zero, which for the nonnegative values arising in this library is the
floor (`q.num / q.den` is the floor of `q` by `Rat.floor_def`). -/
def ratTrunc (q : ℚ) : ℕ :=
  (q.num / (q.den : ℤ)).toNat

/-- Model of std::clamp(v, lo, hi). -/
def ratClamp (v lo hi : ℚ) : ℚ :=
  if v < lo then lo else if hi < v then hi else v

/-- Largest finite binary32 value FLT_MAX = (2 - 2^-23) * 2^127, the
`std::numeric_limits<float>::max()` sentinel used by the extrema tracking. -/
def flt_max : ℚ := 2 ^ 128 - 2 ^ 104

/-- Smallest finite binary32 value, `std::numeric_limits<float>::lowest()`. -/
def flt_lowest : ℚ := -(2 ^ 128 - 2 ^ 104)

/-! ### Color scheme (src/include/plotz/color_scheme.hpp) -/

/-- One loop iteration of `interpolate_color`: the 4 RGBA bytes of step `i`
of a linear-interpolation segment.  Each channel is computed as
`uint8_t(c1 + ratio * (c2 - c1))` with `ratio = float(i) / (steps - 1)`;
the C cast to `uint8_t` truncates, it does not round. -/
def interpolate_sample (c1 c2 : rgba) (steps i : ℕ) : List ℕ :=
  let ratio : ℚ := (i : ℚ) / ((steps : ℚ) - 1)
  [ratTrunc ((c1.r : ℚ) + ratio * ((c2.r : ℚ) - (c1.r : ℚ))),
   ratTrunc ((c1.g : ℚ) + ratio * ((c2.g : ℚ) - (c1.g : ℚ))),
   ratTrunc ((c1.b : ℚ) + ratio * ((c2.b : ℚ) - (c1.b : ℚ))),
   ratTrunc ((c1.a : ℚ) + ratio * ((c2.a : ℚ) - (c1.a : ℚ)))]

/-- Embedding of `interpolate_color`: produces the `steps * 4` RGBA bytes of
one segment, the i-th loop iteration contributing the 4 bytes of
`interpolate_sample`. -/
def interpolate_color (c1 c2 : rgba) (steps : ℕ) : List ℕ :=
  (List.range steps).foldl (fun acc i => acc ++ interpolate_sample c1 c2 steps i) []

/-- Embedding of `make_color_scheme`: fewer than two key colors yields the
empty table, otherwise the segments for each adjacent key pair are laid out
consecutively. -/
def make_color_scheme (key_colors : List rgba) (steps_between_keys : ℕ) : List ℕ :=
  if key_colors.length < 2 then []
  else
    (List.range (key_colors.length - 1)).foldl (fun acc i =>
      acc ++ interpolate_color (key_colors.getD i ⟨0, 0, 0, 0⟩)
        (key_colors.getD (i + 1) ⟨0, 0, 0, 0⟩) steps_between_keys) []

/-! ### Magnitude plot (src/include/plotz/magnitude.hpp, struct magnitude) -/

/-- State of a `magnitude` plot: a width*height row-major value buffer plus
running extrema initialised to the float lowest/max sentinels. -/
structure magnitude where
  width : ℕ
  height : ℕ
  max_magnitude : ℚ
  min_magnitude : ℚ
  buffer : List ℚ
deriving DecidableEq, Repr

/-- Freshly constructed `magnitude(width, height)`: zeroed buffer, extrema at
the lowest/max sentinels. -/
def magnitude.init (w h : ℕ) : magnitude :=
  { width := w, height := h, max_magnitude := flt_lowest, min_magnitude := flt_max,
    buffer := List.replicate (w * h) 0 }

/-- Embedding of `magnitude::add_point`: out-of-range points are ignored,
in-range points overwrite the cell and widen both extrema. -/
def magnitude.add_point (m : magnitude) (x y : ℕ) (v : ℚ) : magnitude :=
  if x ≥ m.width ∨ y ≥ m.height then m
  else
    let idx := y * m.width + x
    { m with
      buffer := m.buffer.set idx v,
      max_magnitude := if v > m.max_magnitude then v else m.max_magnitude,
      min_magnitude := if v < m.min_magnitude then v else m.min_magnitude }

/-- Embedding of `magnitude::shift_buffer_to_non_negative`. -/
def magnitude.shift_buffer_to_non_negative (m : magnitude) : magnitude :=
  if m.buffer = [] then m
  else if m.min_magnitude < 0 then
    let shift := -m.min_magnitude
    { m with
      buffer := m.buffer.map (fun v => v + shift),
      max_magnitude := m.max_magnitude + shift,
      min_magnitude := 0 }
  else m

/-- Helper shared by all render paths (`get_color_count`): number of RGBA
entries in a flat color table. -/
def get_color_count (colors : List ℕ) : ℕ :=
  colors.length / 4

/-- Copy of 4 color-table bytes into the output buffer
(`std::copy_n(colors.begin() + color_idx * 4, 4, colorbuf.begin() + idx * 4)`). -/
def copyColor4 (colors : List ℕ) (color_idx : ℕ) (cb : List ℕ) (idx : ℕ) : List ℕ :=
  ((((cb.set (idx * 4) (colors.getD (color_idx * 4) 0)).set
      (idx * 4 + 1) (colors.getD (color_idx * 4 + 1) 0)).set
      (idx * 4 + 2) (colors.getD (color_idx * 4 + 2) 0)).set
      (idx * 4 + 3) (colors.getD (color_idx * 4 + 3) 0))

/-- Embedding of `magnitude::render_saturated`: an empty color scheme yields
the zero-filled RGBA buffer, otherwise each pixel is normalised, mapped to a
color index by `size_t((ncolors - 1) * normalized + 0.5)` clamped to the
table, and the RGBA entry is copied verbatim. -/
def magnitude.render_saturated (m : magnitude) (colors : List ℕ) (saturation : ℚ) : List ℕ :=
  let total_pixels := m.width * m.height
  let colorbuf : List ℕ := List.replicate (total_pixels * 4) 0
  let ncolors := get_color_count colors
  if ncolors = 0 then colorbuf
  else
    (List.range total_pixels).foldl (fun cb idx =>
      let val := m.buffer.getD idx 0
      let normalized := ratClamp (val / saturation) 0 1
      let color_idx := min (ratTrunc (((ncolors - 1 : ℕ) : ℚ) * normalized + 1 / 2)) (ncolors - 1)
      copyColor4 colors color_idx cb idx) colorbuf

/-! ### Magnitude-mapped plot (src/include/plotz/magnitude.hpp,
struct magnitude_mapped) -/

/-- State of a `magnitude_mapped` plot: logical input grid decoupled from the
physical image buffer. -/
structure magnitude_mapped where
  input_width : ℕ
  input_height : ℕ
  image_width : ℕ
  image_height : ℕ
  max_magnitude : ℚ
  min_magnitude : ℚ
  buffer : List ℚ
deriving DecidableEq, Repr

/-- Freshly constructed `magnitude_mapped(width_in, height_in, img_width,
img_height)`. -/
def magnitude_mapped.init (iw ih imgw imgh : ℕ) : magnitude_mapped :=
  { input_width := iw, input_height := ih, image_width := imgw, image_height := imgh,
    max_magnitude := flt_lowest, min_magnitude := flt_max,
    buffer := List.replicate (imgw * imgh) 0 }

/-- Embedding of `magnitude_mapped::add_point`: the target rectangle is
`[start_x, end_x) x [start_y, end_y)` with `start = uint32(coord * scale)`
and `end = uint32((coord + 1) * scale)` clamped to the image, and the value
is accumulated additively into every covered pixel, updating the extrema per
pixel from the freshly accumulated cell value. -/
def magnitude_mapped.add_point (m : magnitude_mapped) (input_x input_y : ℕ) (v : ℚ) :
    magnitude_mapped :=
  if m.input_width = 0 ∨ m.input_height = 0 then m
  else
    let scale_x : ℚ := (m.image_width : ℚ) / (m.input_width : ℚ)
    let scale_y : ℚ := (m.image_height : ℚ) / (m.input_height : ℚ)
    let start_x := ratTrunc ((input_x : ℚ) * scale_x)
    let start_y := ratTrunc ((input_y : ℚ) * scale_y)
    let end_x := min (ratTrunc (((input_x : ℚ) + 1) * scale_x)) m.image_width
    let end_y := min (ratTrunc (((input_y : ℚ) + 1) * scale_y)) m.image_height
    (List.range' start_y (end_y - start_y)).foldl (fun acc img_y =>
      (List.range' start_x (end_x - start_x)).foldl (fun acc2 img_x =>
        let idx := img_y * m.image_width + img_x
        let newv := acc2.buffer.getD idx 0 + v
        { acc2 with
          buffer := acc2.buffer.set idx newv,
          max_magnitude := if newv > acc2.max_magnitude then newv else acc2.max_magnitude,
          min_magnitude := if newv < acc2.min_magnitude then newv else acc2.min_magnitude })
        acc) m

/-- Embedding of `magnitude_mapped::shift_buffer_to_non_negative` (same body
as the magnitude variant). -/
def magnitude_mapped.shift_buffer_to_non_negative (m : magnitude_mapped) : magnitude_mapped :=
  if m.buffer = [] then m
  else if m.min_magnitude < 0 then
    let shift := -m.min_magnitude
    { m with
      buffer := m.buffer.map (fun v => v + shift),
      max_magnitude := m.max_magnitude + shift,
      min_magnitude := 0 }
  else m

/-- Embedding of `magnitude_mapped::render_saturated` (same algorithm as the
magnitude variant over the image-sized buffer). -/
def magnitude_mapped.render_saturated (m : magnitude_mapped) (colors : List ℕ)
    (saturation : ℚ) : List ℕ :=
  let total_pixels := m.image_width * m.image_height
  let colorbuf : List ℕ := List.replicate (total_pixels * 4) 0
  let ncolors := get_color_count colors
  if ncolors = 0 then colorbuf
  else
    (List.range total_pixels).foldl (fun cb idx =>
      let val := m.buffer.getD idx 0
      let normalized := ratClamp (val / saturation) 0 1
      let color_idx := min (ratTrunc (((ncolors - 1 : ℕ) : ℚ) * normalized + 1 / 2)) (ncolors - 1)
      copyColor4 colors color_idx cb idx) colorbuf

/-! ### Spectrum plot (src/include/plotz/spectrum.hpp) -/

/-- Modelled from the spec: the constant `transparent` compared against
`background_color` in `spectrum::render_saturated` is referenced by
src/include/plotz/spectrum.hpp but its definition is not part of the sources
under src/; per the default-background comment in the spectrum constructor
("Default transparent background (alpha = 0)", value {0, 0, 0, 0}) it is the
fully transparent RGBA color. -/
def transparent : rgba := ⟨0, 0, 0, 0⟩

/-- Bar rendering styles of the spectrum plot. -/
inductive bar_style where
  | solid
  | gradient
  | segmented
deriving DecidableEq, Repr

/-- State of a `spectrum` plot: a 1D bin buffer with a parallel peak buffer
and rendering configuration.  The binary32 defaults 0.05f and 0.8f are
carried as the rationals they denote; no theorem below depends on their
exact values. -/
structure spectrum where
  num_bins : ℕ
  width : ℕ
  height : ℕ
  max_magnitude : ℚ
  min_magnitude : ℚ
  buffer : List ℚ
  peak_values : List ℚ
  style : bar_style
  peak_decay : ℚ
  show_peaks : Bool
  bar_width_factor : ℚ
  background_color : rgba
deriving DecidableEq, Repr

/-- Freshly constructed `spectrum(bins_in, width_in, height_in)`. -/
def spectrum.init (bins w h : ℕ) : spectrum :=
  { num_bins := bins, width := w, height := h,
    max_magnitude := flt_lowest, min_magnitude := flt_max,
    buffer := List.replicate bins 0, peak_values := List.replicate bins 0,
    style := .solid, peak_decay := 1 / 20, show_peaks := true,
    bar_width_factor := 4 / 5, background_color := ⟨0, 0, 0, 0⟩ }

/-- One iteration of the `spectrum::update` loop at bin `i`: the bin is
overwritten, the extrema widen, and the peak either snaps up to the new
value or (for positive `peak_decay`) decays by `peak_decay` clamped from
below by the new value. -/
def spectrum.update_step (st : spectrum) (i : ℕ) (v : ℚ) : spectrum :=
  { st with
    buffer := st.buffer.set i v,
    max_magnitude := if v > st.max_magnitude then v else st.max_magnitude,
    min_magnitude := if v < st.min_magnitude then v else st.min_magnitude,
    peak_values :=
      if v > st.peak_values.getD i 0 then st.peak_values.set i v
      else if st.peak_decay > 0 then
        let p := st.peak_values.getD i 0 - st.peak_decay
        if p < v then st.peak_values.set i v else st.peak_values.set i p
      else st.peak_values }

/-- Peak update rule applied per written bin by `spectrum::update` and
`spectrum::update_bin`: snap up to a larger value, otherwise (for positive
`peak_decay`) decay by `peak_decay` clamped from below by the value, and
otherwise leave the peak alone. -/
def peak_track (p v decay : ℚ) : ℚ :=
  if v > p then v
  else if decay > 0 then
    if p - decay < v then v else p - decay
  else p

/-- Loop of `spectrum::update` over bins `i < size`. -/
def spectrum.update_go (st : spectrum) (vals : List ℚ) (i size : ℕ) : spectrum :=
  if _h : i < size then
    spectrum.update_go (st.update_step i (vals.getD i 0)) vals (i + 1) size
  else st
termination_by size - i

/-- Embedding of `spectrum::update`: overwrites the first
`min(num_bins, magnitudes.size())` bins. -/
def spectrum.update (st : spectrum) (vals : List ℚ) : spectrum :=
  spectrum.update_go st vals 0 (min st.num_bins vals.length)

/-- Embedding of `spectrum::update_bin`: a single-bin update, ignored when
the bin index is out of range. -/
def spectrum.update_bin (st : spectrum) (bin : ℕ) (v : ℚ) : spectrum :=
  if bin ≥ st.num_bins then st else st.update_step bin v

/-- Embedding of `spectrum::shift_buffer_to_non_negative`: shifts the value
buffer and the peak buffer together. -/
def spectrum.shift_buffer_to_non_negative (st : spectrum) : spectrum :=
  if st.buffer = [] then st
  else if st.min_magnitude < 0 then
    let shift := -st.min_magnitude
    { st with
      buffer := st.buffer.map (fun v => v + shift),
      peak_values := st.peak_values.map (fun v => v + shift),
      max_magnitude := st.max_magnitude + shift,
      min_magnitude := 0 }
  else st

/-- Subtraction as computed on uint32 operands (`a - b` wrapping modulo
2^32), for the places where the drawing code can wrap. -/
def u32sub (a b : ℕ) : ℕ :=
  (a + 2 ^ 32 - b % 2 ^ 32) % 2 ^ 32

/-- Body of the per-column style switch shared verbatim by
`render_bins_to_pixels` and `render_pixels_from_bins`: draws one vertical bar
at column `x` for the given normalised value. -/
def spectrum.draw_column (st : spectrum) (colors : List ℕ) (ncolors : ℕ) (x : ℕ)
    (normalized : ℚ) (cb : List ℕ) : List ℕ :=
  let bar_height := ratTrunc (normalized * (st.height : ℚ))
  match st.style with
  | .solid =>
    let color_idx := min (ratTrunc (((ncolors - 1 : ℕ) : ℚ) * normalized + 1 / 2)) (ncolors - 1)
    (List.range bar_height).foldl (fun cb2 y =>
      let pos_y := st.height - y - 1
      copyColor4 colors color_idx cb2 (pos_y * st.width + x)) cb
  | .gradient =>
    (List.range bar_height).foldl (fun cb2 y =>
      let pos_y := st.height - y - 1
      let color_pos : ℚ := (y : ℚ) / (st.height : ℚ)
      let color_idx := min (ratTrunc (((ncolors - 1 : ℕ) : ℚ) * color_pos + 1 / 2)) (ncolors - 1)
      copyColor4 colors color_idx cb2 (pos_y * st.width + x)) cb
  | .segmented =>
    let segment_height := st.height / 16
    (List.range 16).foldl (fun cb2 (segment : ℕ) =>
      let segment_threshold : ℚ := (segment : ℚ) * (1 / 16)
      if normalized ≥ segment_threshold then
        let start_y := st.height - (segment + 1) * segment_height
        let end_y := st.height - segment * segment_height
        let color_pos : ℚ := (segment : ℚ) / (15 : ℚ)
        let color_idx := min (ratTrunc (((ncolors - 1 : ℕ) : ℚ) * color_pos + 1 / 2)) (ncolors - 1)
        (List.range' (start_y + 1) (u32sub end_y 1 - (start_y + 1))).foldl (fun cb3 y =>
          copyColor4 colors color_idx cb3 (y * st.width + x)) cb2
      else cb2) cb

/-- Peak indicator drawing for one column `x` (the computation of `peak_pos`
uses wrapping uint32 subtraction, so a fully saturated peak skips the
indicator via the `peak_pos < height` test). -/
def spectrum.draw_peak (st : spectrum) (colors : List ℕ) (ncolors : ℕ) (x : ℕ)
    (peak_normalized : ℚ) (cb : List ℕ) : List ℕ :=
  if st.show_peaks ∧ peak_normalized > 0 then
    let peak_pos := u32sub st.height (ratTrunc (peak_normalized * (st.height : ℚ)) + 1)
    if peak_pos < st.height then
      copyColor4 colors (ncolors - 1) cb (peak_pos * st.width + x)
    else cb
  else cb

/-- Embedding of `spectrum::render_bins_to_pixels` (the `num_bins <= width`
expand path): each bin maps to a pixel range, optionally narrowed by
`bar_width_factor`, and the bar plus peak indicator are drawn per column. -/
def spectrum.render_bins_to_pixels (st : spectrum) (colors : List ℕ) (saturation : ℚ)
    (colorbuf : List ℕ) (ncolors : ℕ) : List ℕ :=
  let bin_to_pixel_ratio : ℚ := (st.width : ℚ) / (st.num_bins : ℚ)
  (List.range st.num_bins).foldl (fun cb bin =>
    let val := st.buffer.getD bin 0
    let peak_val := st.peak_values.getD bin 0
    let normalized := ratClamp (val / saturation) 0 1
    let peak_normalized := ratClamp (peak_val / saturation) 0 1
    let start_x := ratTrunc ((bin : ℚ) * bin_to_pixel_ratio)
    let end_x := ratTrunc (((bin : ℚ) + 1) * bin_to_pixel_ratio)
    let end_x := if start_x = end_x ∧ end_x < st.width then start_x + 1 else end_x
    let (start_x, end_x) :=
      if st.bar_width_factor < 1 then
        let full_width := end_x - start_x
        let bar_width := ratTrunc ((full_width : ℚ) * st.bar_width_factor)
        let bar_width := if bar_width = 0 ∧ full_width > 0 then 1 else bar_width
        let padding := (full_width - bar_width) / 2
        (start_x + padding, start_x + padding + bar_width)
      else (start_x, end_x)
    let end_x := min end_x st.width
    let cb := (List.range' start_x (end_x - start_x)).foldl (fun cb2 x =>
      st.draw_column colors ncolors x normalized cb2) cb
    (List.range' start_x (end_x - start_x)).foldl (fun cb2 x =>
      st.draw_peak colors ncolors x peak_normalized cb2) cb) colorbuf

/-- Embedding of `spectrum::render_pixels_from_bins` (the `num_bins > width`
aggregate path): each pixel column takes the maximum value and maximum peak
over its mapped bin range, `bar_width_factor < 1` zeroes alternate columns,
and each column is drawn like a one-pixel bar. -/
def spectrum.render_pixels_from_bins (st : spectrum) (colors : List ℕ) (saturation : ℚ)
    (colorbuf : List ℕ) (ncolors : ℕ) : List ℕ :=
  let pixel_to_bin_ratio : ℚ := (st.num_bins : ℚ) / (st.width : ℚ)
  let pixel_values : List ℚ := (List.range st.width).map (fun x =>
    let start_bin := ratTrunc ((x : ℚ) * pixel_to_bin_ratio)
    let end_bin := min (ratTrunc (((x : ℚ) + 1) * pixel_to_bin_ratio)) st.num_bins
    (List.range' start_bin (end_bin - start_bin)).foldl
      (fun m bin => max m (st.buffer.getD bin 0)) 0)
  let pixel_peaks : List ℚ := (List.range st.width).map (fun x =>
    let start_bin := ratTrunc ((x : ℚ) * pixel_to_bin_ratio)
    let end_bin := min (ratTrunc (((x : ℚ) + 1) * pixel_to_bin_ratio)) st.num_bins
    (List.range' start_bin (end_bin - start_bin)).foldl
      (fun m bin => max m (st.peak_values.getD bin 0)) 0)
  let pixel_values := if st.bar_width_factor < 1 then
      (List.range st.width).map (fun x =>
        if ((x % 2 : ℕ) : ℚ) / 2 ≤ st.bar_width_factor then pixel_values.getD x 0 else 0)
    else pixel_values
  let pixel_peaks := if st.bar_width_factor < 1 then
      (List.range st.width).map (fun x =>
        if ((x % 2 : ℕ) : ℚ) / 2 ≤ st.bar_width_factor then pixel_peaks.getD x 0 else 0)
    else pixel_peaks
  (List.range st.width).foldl (fun cb x =>
    let val := pixel_values.getD x 0
    let peak_val := pixel_peaks.getD x 0
    let normalized := ratClamp (val / saturation) 0 1
    let peak_normalized := ratClamp (peak_val / saturation) 0 1
    let cb := st.draw_column colors ncolors x normalized cb
    st.draw_peak colors ncolors x peak_normalized cb) colorbuf

/-- Embedding of `spectrum::render_saturated`: the canvas starts transparent,
is pre-filled with the background color when one is configured, is returned
as-is for an empty color scheme, and is otherwise drawn by one of the two
resampling paths selected by comparing `num_bins` with `width`. -/
def spectrum.render_saturated (st : spectrum) (colors : List ℕ) (saturation : ℚ) : List ℕ :=
  let total_pixels := st.width * st.height
  let colorbuf : List ℕ := List.replicate (total_pixels * 4) 0
  let colorbuf :=
    if st.background_color ≠ transparent then
      (List.range total_pixels).foldl (fun cb i =>
        ((((cb.set (i * 4) st.background_color.r).set
            (i * 4 + 1) st.background_color.g).set
            (i * 4 + 2) st.background_color.b).set
            (i * 4 + 3) st.background_color.a)) colorbuf
    else colorbuf
  let ncolors := get_color_count colors
  if ncolors = 0 then colorbuf
  else if st.num_bins ≤ st.width then
    st.render_bins_to_pixels colors saturation colorbuf ncolors
  else
    st.render_pixels_from_bins colors saturation colorbuf ncolors

/-! ### Heatmap (src/include/plotz/heatmap.hpp) -/

/-- Stamp kernel: a stamp_w x stamp_h grid of weights. -/
structure heatmap_stamp where
  w : ℕ
  h : ℕ
  buffer : List ℚ
deriving DecidableEq, Repr

/-- State of a `heatmap`: a width*height accumulation buffer with a running
maximum. -/
structure heatmap where
  width : ℕ
  height : ℕ
  max_heat : ℚ
  buffer : List ℚ
deriving DecidableEq, Repr

/-- Freshly constructed `heatmap(width, height)`. -/
def heatmap.init (w h : ℕ) : heatmap :=
  { width := w, height := h, max_heat := 0, buffer := List.replicate (w * h) 0 }

/-- Embedding of `heatmap::add_point_with_stamp`: anchors the stamp center
`(stamp_w / 2, stamp_h / 2)` at `(x, y)`, restricts the stamp-cell ranges to
`[x0, x1) x [y0, y1)`, and accumulates each visited stamp cell into the
buffer cell at flat index `buf_y * width + (x + ix) - stamp_w / 2` (the same
index the C code reaches through its incrementing `buf_line_idx`), updating
the running maximum. -/
def heatmap.add_point_with_stamp (hm : heatmap) (x y : ℕ) (stamp : heatmap_stamp) : heatmap :=
  if x ≥ hm.width ∨ y ≥ hm.height then hm
  else
    let sw := stamp.w
    let sh := stamp.h
    let x0 := if x < sw / 2 then sw / 2 - x else 0
    let y0 := if y < sh / 2 then sh / 2 - y else 0
    let x1 := if x + sw / 2 < hm.width then sw else sw / 2 + (hm.width - x)
    let y1 := if y + sh / 2 < hm.height then sh else sh / 2 + (hm.height - y)
    (List.range' y0 (y1 - y0)).foldl (fun acc iy =>
      let buf_y := (y + iy) - sh / 2
      (List.range' x0 (x1 - x0)).foldl (fun acc2 ix =>
        let buf_idx := buf_y * hm.width + ((x + ix) - sw / 2)
        let newv := acc2.buffer.getD buf_idx 0 + stamp.buffer.getD (iy * sw + ix) 0
        { acc2 with
          buffer := acc2.buffer.set buf_idx newv,
          max_heat := if newv > acc2.max_heat then newv else acc2.max_heat }) acc) hm

/-! ### PNG encoder and DEFLATE compressor (src/include/plotz/png.hpp) -/

/-- Loop body of `reverse_bits`: `result = (result << 1) | (value & 1)` then
`value >>= 1`, repeated `count` times (the OR is an addition because the
shifted accumulator has a zero low bit). -/
def reverse_bits_go (value count acc : ℕ) : ℕ :=
  match count with
  | 0 => acc
  | n + 1 => reverse_bits_go (value / 2) n (2 * acc + value % 2)

/-- Embedding of `reverse_bits`: reverses the low `count` bits of `value`. -/
def reverse_bits (value count : ℕ) : ℕ :=
  reverse_bits_go value count 0

/-- State of the growable `BitBuffer`: flushed bytes plus the pending
uint32 bit accumulator (capacity bookkeeping and allocation failure are not
modelled; every write succeeds). -/
structure BitBuffer where
  bytes : List ℕ
  bit_buffer : ℕ
  bit_count : ℕ
deriving DecidableEq, Repr

/-- Drain loop of `write_bits`: while at least 8 bits are pending, move the
low byte of the accumulator into the byte list. -/
def drainBits (bytes : List ℕ) (acc n : ℕ) : List ℕ × ℕ × ℕ :=
  if _h : 8 ≤ n then drainBits (bytes ++ [acc % 256]) (acc / 256) (n - 8)
  else (bytes, acc, n)
termination_by n

/-- Embedding of `write_bits`: DEFLATE packs bits LSB first, so the new bits
are ORed in above the pending ones (the uint32 shift wraps modulo 2^32) and
full bytes are drained. -/
def write_bits (st : BitBuffer) (bits count : ℕ) : BitBuffer :=
  let acc := st.bit_buffer ||| ((bits <<< st.bit_count) % 2 ^ 32)
  let r := drainBits st.bytes acc (st.bit_count + count)
  ⟨r.1, r.2.1, r.2.2⟩

/-- Embedding of `flush_bit_buffer`: emits the final partial byte
(zero-padded in its high bits) when any bits are pending. -/
def flush_bit_buffer (st : BitBuffer) : BitBuffer :=
  if 0 < st.bit_count then ⟨st.bytes ++ [st.bit_buffer % 256], 0, 0⟩ else st

/-- Embedding of `init_fixed_huffman_codes` for the literal/length alphabet:
the (code, bit-length) pair assigned to symbol `i` by the DEFLATE fixed
code. -/
def fixed_literal_length_code (i : ℕ) : ℕ × ℕ :=
  if i ≤ 143 then (i + 48, 8)
  else if i ≤ 255 then (i - 144 + 400, 9)
  else if i ≤ 279 then (i - 256, 7)
  else (i - 280 + 192, 8)

/-- Embedding of `init_fixed_huffman_codes` for the distance alphabet: every
distance code is itself, 5 bits wide. -/
def fixed_distance_code (i : ℕ) : ℕ × ℕ :=
  (i, 5)

/-- The 29-entry `length_table` of (base value, extra bits). -/
def length_table : List (ℕ × ℕ) :=
  [(3, 0), (4, 0), (5, 0), (6, 0), (7, 0), (8, 0), (9, 0), (10, 0),
   (11, 1), (13, 1), (15, 1), (17, 1), (19, 2), (23, 2), (27, 2), (31, 2),
   (35, 3), (43, 3), (51, 3), (59, 3), (67, 4), (83, 4), (99, 4), (115, 4),
   (131, 5), (163, 5), (195, 5), (227, 5), (258, 0)]

/-- The 30-entry `distance_table` of (base value, extra bits). -/
def distance_table : List (ℕ × ℕ) :=
  [(1, 0), (2, 0), (3, 0), (4, 0), (5, 1), (7, 1), (9, 2), (13, 2),
   (17, 3), (25, 3), (33, 4), (49, 4), (65, 5), (97, 5), (129, 6), (193, 6),
   (257, 7), (385, 7), (513, 8), (769, 8), (1025, 9), (1537, 9), (2049, 10),
   (3073, 10), (4097, 11), (6145, 11), (8193, 12), (12289, 12), (16385, 13), (24577, 13)]

/-- Scan of the length table in `deflate_compress_fixed`: finds the first
entry whose range contains the match length and returns (length code,
extra-bit count, extra-bit value), defaulting to (0, 0, 0) like the
uninitialised locals when nothing matches. -/
def length_code_scan (len i : ℕ) : ℕ × ℕ × ℕ :=
  if _h : i < 29 then
    let e := length_table.getD i (0, 0)
    if e.1 ≤ len ∧ len ≤ e.1 + 2 ^ e.2 - 1 then
      (i + 257, e.2, if 0 < e.2 then len - e.1 else 0)
    else length_code_scan len (i + 1)
  else (0, 0, 0)
termination_by 29 - i

/-- Scan of the distance table in `deflate_compress_fixed`: finds the first
entry whose range contains the match distance. -/
def distance_code_scan (dist i : ℕ) : ℕ × ℕ × ℕ :=
  if _h : i < 30 then
    let e := distance_table.getD i (0, 0)
    if e.1 ≤ dist ∧ dist ≤ e.1 + 2 ^ e.2 - 1 then
      (i, e.2, if 0 < e.2 then dist - e.1 else 0)
    else distance_code_scan dist (i + 1)
  else (0, 0, 0)
termination_by 30 - i

/-- Inner while loop of `find_match`: counts consecutive equal bytes at
offsets `i` and `pos`, stopping at the end of the data or at the maximum
match length 258. -/
def matchLen (data : List ℕ) (i pos len : ℕ) : ℕ :=
  if pos + len < data.length ∧ data.getD (i + len) 0 = data.getD (pos + len) 0 ∧ len < 258 then
    matchLen data i pos (len + 1)
  else len
termination_by 258 - len

/-- Candidate loop of `find_match`: walks `i` from the window start to
`pos`, keeping the strictly longest match of length at least 3 (so the
earliest, i.e. farthest, occurrence of the maximal length wins) and breaking
early on a full 258-byte match. -/
def findLoop (data : List ℕ) (pos i bestLen bestDist : ℕ) : ℕ × ℕ :=
  if _h : i < pos then
    if data.getD i 0 ≠ data.getD pos 0 then findLoop data pos (i + 1) bestLen bestDist
    else
      let len := matchLen data i pos 0
      if 3 ≤ len ∧ bestLen < len then
        if len = 258 then (len, pos - i)
        else findLoop data pos (i + 1) len (pos - i)
      else findLoop data pos (i + 1) bestLen bestDist
  else (bestLen, bestDist)
termination_by pos - i

/-- Embedding of `find_match`: searches the 32768-byte window before `pos`
for the longest previous occurrence of the bytes at `pos`, returning
(distance, length) like the C out-parameters when a match of length at
least 3 exists. -/
def find_match (data : List ℕ) (pos : ℕ) : Option (ℕ × ℕ) :=
  if data.length < pos + 3 then none
  else
    let window_start := if 32768 < pos then pos - 32768 else 0
    let r := findLoop data pos window_start 0 0
    if 3 ≤ r.1 then some (r.2, r.1) else none

/-- Result of a successful `find_match` has a positive match length (it is
at least the minimum match length 3). -/
theorem find_match_length_pos (data : List ℕ) (pos d l : ℕ)
    (h : find_match data pos = some (d, l)) : 0 < l := by
  unfold find_match at h
  split at h
  · simp at h
  · dsimp only at h
    split at h <;> split at h <;>
      simp only [Option.some.injEq, Prod.mk.injEq, reduceCtorEq] at h <;> omega

/-- Main loop of `deflate_compress_fixed`: at each position either a
(length, distance) pair or a literal is emitted, each Huffman code being
bit-reversed before the LSB-first packing, with extra bits written only when
their count is positive. -/
def deflateLoop (data : List ℕ) (pos : ℕ) (st : BitBuffer) : BitBuffer :=
  if _hpos : pos < data.length then
    match _hm : find_match data pos with
    | some (dist, len) =>
      let lc := length_code_scan len 0
      let code := fixed_literal_length_code lc.1
      let st := write_bits st (reverse_bits code.1 code.2) code.2
      let st := if 0 < lc.2.1 then write_bits st lc.2.2 lc.2.1 else st
      let dc := distance_code_scan dist 0
      let dcode := fixed_distance_code dc.1
      let st := write_bits st (reverse_bits dcode.1 dcode.2) dcode.2
      let st := if 0 < dc.2.1 then write_bits st dc.2.2 dc.2.1 else st
      deflateLoop data (pos + len) st
    | none =>
      let code := fixed_literal_length_code (data.getD pos 0)
      let st := write_bits st (reverse_bits code.1 code.2) code.2
      deflateLoop data (pos + 1) st
  else st
termination_by data.length - pos
decreasing_by
  · have := find_match_length_pos data pos dist len _hm; omega
  · omega

/-- Embedding of `deflate_compress_fixed`: one final fixed-Huffman block
(the 3 header bits are BFINAL = 1 and BTYPE = 01, written LSB first),
followed by the token stream, the end-of-block code 256, and a flush of the
trailing partial byte. -/
def deflate_compress_fixed (data : List ℕ) : BitBuffer :=
  let st : BitBuffer := ⟨[], 0, 0⟩
  let st := write_bits st 3 3
  let st := deflateLoop data 0 st
  let code := fixed_literal_length_code 256
  let st := write_bits st (reverse_bits code.1 code.2) code.2
  flush_bit_buffer st

/-! ### PNG row filters (src/include/plotz/png.hpp) -/

/-- Subtraction of two bytes as computed on uint8 operands. -/
def u8sub (a b : ℕ) : ℕ :=
  (a % 256 + 256 - b % 256) % 256

/-- Byte of the previous scanline, 0 when there is none (NULL `prev_row`). -/
def prevByte (prev : Option (List ℕ)) (i : ℕ) : ℕ :=
  match prev with
  | none => 0
  | some p => p.getD i 0

/-- Embedding of `paeth_predictor` over promoted int arithmetic. -/
def paeth_predictor (a b c : ℕ) : ℕ :=
  let p : ℤ := (a : ℤ) + b - c
  let pa := |p - a|
  let pb := |p - b|
  let pc := |p - c|
  if pa ≤ pb ∧ pa ≤ pc then a else if pb ≤ pc then b else c

/-- Embedding of `apply_none_filter`: type byte 0 then the raw row. -/
def apply_none_filter (row : List ℕ) : List ℕ :=
  0 :: row

/-- Embedding of `apply_sub_filter`: type byte 1; the first
`bytes_per_pixel` bytes are copied, the rest subtract the byte one pixel to
the left. -/
def apply_sub_filter (row : List ℕ) (bpp : ℕ) : List ℕ :=
  1 :: (List.range row.length).map (fun i =>
    if i < bpp then row.getD i 0 else u8sub (row.getD i 0) (row.getD (i - bpp) 0))

/-- Embedding of `apply_up_filter`: type byte 2; subtracts the byte above
(0 for the first scanline). -/
def apply_up_filter (row : List ℕ) (prev : Option (List ℕ)) : List ℕ :=
  2 :: (List.range row.length).map (fun i => u8sub (row.getD i 0) (prevByte prev i))

/-- Embedding of `apply_average_filter`: type byte 3; subtracts the floored
mean of the left and above bytes. -/
def apply_average_filter (row : List ℕ) (prev : Option (List ℕ)) (bpp : ℕ) : List ℕ :=
  3 :: (List.range row.length).map (fun i =>
    let a := if i < bpp then 0 else row.getD (i - bpp) 0
    let b := prevByte prev i
    u8sub (row.getD i 0) ((a + b) / 2))

/-- Embedding of `apply_paeth_filter`: type byte 4; subtracts the Paeth
prediction from left, above and above-left bytes. -/
def apply_paeth_filter (row : List ℕ) (prev : Option (List ℕ)) (bpp : ℕ) : List ℕ :=
  4 :: (List.range row.length).map (fun i =>
    let a := if i < bpp then 0 else row.getD (i - bpp) 0
    let b := prevByte prev i
    let c := if prev.isSome ∧ bpp ≤ i then prevByte prev (i - bpp) else 0
    u8sub (row.getD i 0) (paeth_predictor a b c))

/-- Absolute value of a byte reinterpreted as a signed 8-bit integer,
`abs((int8_t)b)` (the promotion to int makes abs(-128) well defined
as 128). -/
def signedAbs (b : ℕ) : ℕ :=
  if b % 256 < 128 then b % 256 else 256 - b % 256

/-- The five candidate filtered rows in filter-type order. -/
def apply_filter (f : ℕ) (row : List ℕ) (prev : Option (List ℕ)) (bpp : ℕ) : List ℕ :=
  [apply_none_filter row, apply_sub_filter row bpp, apply_up_filter row prev,
   apply_average_filter row prev bpp, apply_paeth_filter row prev bpp].getD f []

/-- Sum of `signedAbs` over the data bytes as accumulated in a uint32. -/
def sum_abs_u32 (bytes : List ℕ) : ℕ :=
  bytes.foldl (fun s b => (s + signedAbs b) % 2 ^ 32) 0

/-- Embedding of `select_best_filter`: applies all five filters, sums the
absolute signed filtered data bytes (skipping the type byte) into a uint32,
and keeps the first filter attaining the strictly smallest sum, starting
from filter 0 against UINT32_MAX. -/
def select_best_filter (row : List ℕ) (prev : Option (List ℕ)) (bpp : ℕ) : ℕ :=
  ((List.range 5).foldl (fun (acc : ℕ × ℕ) f =>
    let sum := sum_abs_u32 ((apply_filter f row prev bpp).drop 1)
    if sum < acc.2 then (f, sum) else acc) (0, 2 ^ 32 - 1)).1

/-! ### Checksums and PNG container (src/include/plotz/png.hpp) -/

/-- One entry of the CRC table built by `init_crc_table`: eight rounds of
the reflected CRC-32 polynomial step starting from the byte index. -/
def crc_table_entry (i : ℕ) : ℕ :=
  (List.range 8).foldl (fun c _ =>
    if c % 2 = 1 then 0xEDB88320 ^^^ (c >>> 1) else c >>> 1) i

/-- Embedding of `calculate_crc`: table-driven CRC-32 with pre- and
post-inversion. -/
def calculate_crc (data : List ℕ) : ℕ :=
  (data.foldl (fun crc b => crc_table_entry ((crc ^^^ b) % 256) ^^^ (crc >>> 8)) 0xFFFFFFFF)
    ^^^ 0xFFFFFFFF

/-- Embedding of `calculate_adler32`: the running pair (a, b) modulo 65521,
combined as `(b << 16) | a`. -/
def calculate_adler32 (data : List ℕ) : ℕ :=
  let r := data.foldl (fun (ab : ℕ × ℕ) d =>
    let a := (ab.1 + d) % 65521
    ((a, (ab.2 + a) % 65521) : ℕ × ℕ)) (1, 0)
  (r.2 <<< 16) ||| r.1

/-- Big-endian 4-byte serialisation used throughout the chunk writer
(`(value >> k) & 0xFF`). -/
def be32 (v : ℕ) : List ℕ :=
  [(v >>> 24) % 256, (v >>> 16) % 256, (v >>> 8) % 256, v % 256]

/-- File bytes of one chunk as produced by `write_chunk` for a chunk whose
CRC was computed over the type bytes followed by the data, as in
`create_ihdr_chunk`, `create_idat_chunk` and `create_iend_chunk`. -/
def chunk_bytes (ctype : ℕ) (data : List ℕ) : List ℕ :=
  be32 data.length ++ be32 ctype ++ data ++ be32 (calculate_crc (be32 ctype ++ data))

/-- The 8-byte PNG signature. -/
def png_signature : List ℕ :=
  [137, 80, 78, 71, 13, 10, 26, 10]

/-- The `PNGImage` descriptor. -/
structure PNGImage where
  width : ℕ
  height : ℕ
  bit_depth : ℕ
  color_type : ℕ
  data : List ℕ
deriving DecidableEq, Repr

/-- Embedding of `create_png_image`: rejects (returns NULL, modelled as
none) every color type other than RGB (2) and RGBA (6) before doing
anything else, and otherwise copies `width * height * bytes_per_pixel`
bytes of pixel data. -/
def create_png_image (width height color_type : ℕ) (pixel_data : List ℕ) : Option PNGImage :=
  if color_type ≠ 2 ∧ color_type ≠ 6 then none
  else
    let bytes_per_pixel := if color_type = 2 then 3 else 4
    some { width, height, bit_depth := 8, color_type,
           data := pixel_data.take (width * height * bytes_per_pixel) }

/-- The 13 IHDR data bytes written by `create_ihdr_chunk`. -/
def ihdr_data (img : PNGImage) : List ℕ :=
  be32 img.width ++ be32 img.height ++ [img.bit_depth % 256, img.color_type % 256, 0, 0, 0]

/-- Scanline `y` of the image (`image->data + y * row_width`). -/
def png_row (img : PNGImage) (row_width y : ℕ) : List ℕ :=
  (img.data.drop (y * row_width)).take row_width

/-- Filtered stream built by the row loop of `encode_png`: for each row, the
best filter's full output (type byte plus data bytes), concatenated. -/
def filtered_image_data (img : PNGImage) (bpp row_width : ℕ) : List ℕ :=
  ((List.range img.height).map (fun y =>
    let row := png_row img row_width y
    let prev := if y = 0 then none else some (png_row img row_width (y - 1))
    apply_filter (select_best_filter row prev bpp) row prev bpp)).flatten

/-- The 2 zlib header bytes of `write_zlib_header`: CMF = 0x78 and FLG with
FLEVEL = 2 and the FCHECK making the 16-bit value a multiple of 31. -/
def zlib_header : List ℕ :=
  let cmf := 7 * 16 + 8
  let flg := 2 * 64
  let fcheck := 31 - (cmf * 256 + flg) % 31
  [cmf, flg + fcheck]

/-- Data bytes of the IDAT chunk built by `create_idat_chunk`: zlib header,
fixed-Huffman DEFLATE stream, and the big-endian Adler-32 of the filtered
(uncompressed) stream. -/
def create_idat_data (filtered : List ℕ) : List ℕ :=
  zlib_header ++ (deflate_compress_fixed filtered).bytes ++ be32 (calculate_adler32 filtered)

/-- Embedding of `encode_png`, modelled as the byte stream written to the
output file: some bytes means the C function returned true having written
exactly those bytes.  Allocation and stdio failures are outside the model,
and, exactly as in the source, no color-type validation happens here:
`bytes_per_pixel` treats every color type other than RGB (2) as 4 bytes per
pixel and the file is produced regardless. -/
def encode_png (img : PNGImage) : Option (List ℕ) :=
  let bpp := if img.color_type = 2 then 3 else 4
  let row_width := img.width * bpp
  let filtered := filtered_image_data img bpp row_width
  some (png_signature
    ++ chunk_bytes 0x49484452 (ihdr_data img)
    ++ chunk_bytes 0x49444154 (create_idat_data filtered)
    ++ chunk_bytes 0x49454E44 [])

/-! ### Reference inflater

Modelled from the spec: the claim's "standard zlib-compatible DEFLATE
inflater (fixed-Huffman, one final block)" is not part of this repository,
so it is defined here from RFC 1951's fixed-Huffman decoding rules: bits
are consumed LSB first from the byte stream, Huffman codes accumulate MSB
first, the literal/length and distance alphabets use the same base/extra
tables as the spec, and a back-reference copies bytes one at a time so that
overlapping references behave as every zlib-compatible inflater does. -/

/-- Bits of `n`, LSB first. -/
def natBits (v : ℕ) : ℕ → List Bool
  | 0 => []
  | n + 1 => (v % 2 == 1) :: natBits (v / 2) n

/-- Bit stream of a byte list, each byte LSB first, as DEFLATE reads it. -/
def bytesBits (bytes : List ℕ) : List Bool :=
  (bytes.map (fun b => natBits b 8)).flatten

/-- Modelled from the spec: read one bit from the stream. -/
def readBitStream : List Bool → Option (Bool × List Bool)
  | [] => none
  | b :: r => some (b, r)

/-- Modelled from the spec: read `n` bits as an LSB-first integer (the
encoding of DEFLATE extra-bit fields). -/
def readLSB : ℕ → List Bool → Option (ℕ × List Bool)
  | 0, bits => some (0, bits)
  | _ + 1, [] => none
  | n + 1, b :: r =>
    match readLSB n r with
    | none => none
    | some (v, r2) => some ((if b then 1 else 0) + 2 * v, r2)

/-- Modelled from the spec: read `n` bits accumulating MSB first (the order
Huffman codes are transmitted in). -/
def readMSB : ℕ → ℕ → List Bool → Option (ℕ × List Bool)
  | 0, acc, bits => some (acc, bits)
  | _ + 1, _, [] => none
  | n + 1, acc, b :: r => readMSB n (2 * acc + (if b then 1 else 0)) r

/-- Modelled from the spec: decode one fixed-Huffman literal/length symbol
per the RFC 1951 code assignment (7-bit codes 0-23 are symbols 256-279,
8-bit codes 48-191 are symbols 0-143, 8-bit codes 192-199 are symbols
280-287, 9-bit codes 400-511 are symbols 144-255). -/
def decode_lit_len (bits : List Bool) : Option (ℕ × List Bool) :=
  match readMSB 7 0 bits with
  | none => none
  | some (v7, r) =>
    if v7 ≤ 23 then some (256 + v7, r)
    else
      match readMSB 1 v7 r with
      | none => none
      | some (v8, r2) =>
        if 48 ≤ v8 ∧ v8 ≤ 191 then some (v8 - 48, r2)
        else if 192 ≤ v8 ∧ v8 ≤ 199 then some (280 + (v8 - 192), r2)
        else
          match readMSB 1 v8 r2 with
          | none => none
          | some (v9, r3) =>
            if 400 ≤ v9 ∧ v9 ≤ 511 then some (144 + (v9 - 400), r3) else none

/-- Modelled from the spec: copy `len` bytes from `dist` back, one byte at a
time so overlapping back-references replicate. -/
def lz_copy (out : List ℕ) (dist : ℕ) : ℕ → List ℕ
  | 0 => out
  | n + 1 => lz_copy (out ++ [out.getD (out.length - dist) 0]) dist n

/-- Reading `n` LSB-first bits never lengthens the stream. -/
theorem readLSB_length {n : ℕ} {bits : List Bool} {v : ℕ} {r : List Bool}
    (h : readLSB n bits = some (v, r)) : r.length ≤ bits.length := by
  induction n generalizing bits v r with
  | zero => simp only [readLSB] at h; cases h; simp
  | succ n ih =>
    match bits with
    | [] => simp [readLSB] at h
    | b :: t =>
      simp only [readLSB] at h
      cases h2 : readLSB n t with
      | none => rw [h2] at h; simp at h
      | some p =>
        rw [h2] at h
        cases h
        have := ih h2
        simp only [List.length_cons]
        omega

/-- Reading `n` MSB-first bits consumes exactly `n` bits. -/
theorem readMSB_length {n acc : ℕ} {bits : List Bool} {v : ℕ} {r : List Bool}
    (h : readMSB n acc bits = some (v, r)) : r.length + n = bits.length := by
  induction n generalizing acc bits v r with
  | zero => simp only [readMSB] at h; cases h; simp
  | succ n ih =>
    match bits with
    | [] => simp [readMSB] at h
    | b :: t =>
      simp only [readMSB] at h
      have := ih h
      simp only [List.length_cons]
      omega

/-- Decoding one literal/length symbol strictly consumes bits. -/
theorem decode_lit_len_length {bits : List Bool} {sym : ℕ} {r : List Bool}
    (h : decode_lit_len bits = some (sym, r)) : r.length < bits.length := by
  unfold decode_lit_len at h
  cases h7 : readMSB 7 0 bits with
  | none => rw [h7] at h; simp at h
  | some p =>
    obtain ⟨v7, r1⟩ := p
    rw [h7] at h
    have hl1 := readMSB_length h7
    dsimp only at h
    split at h
    · simp only [Option.some.injEq, Prod.mk.injEq] at h
      obtain ⟨h5, h6⟩ := h
      subst h6
      omega
    · cases h8 : readMSB 1 v7 r1 with
      | none => rw [h8] at h; simp at h
      | some q =>
        obtain ⟨v8, r2⟩ := q
        rw [h8] at h
        have hl2 := readMSB_length h8
        dsimp only at h
        split at h
        · simp only [Option.some.injEq, Prod.mk.injEq] at h
          obtain ⟨h5, h6⟩ := h
          subst h6
          omega
        · split at h
          · simp only [Option.some.injEq, Prod.mk.injEq] at h
            obtain ⟨h5, h6⟩ := h
            subst h6
            omega
          · cases h9 : readMSB 1 v8 r2 with
            | none => rw [h9] at h; simp at h
            | some q2 =>
              obtain ⟨v9, r3⟩ := q2
              rw [h9] at h
              have hl3 := readMSB_length h9
              dsimp only at h
              split at h
              · simp only [Option.some.injEq, Prod.mk.injEq] at h
                obtain ⟨h5, h6⟩ := h
                subst h6
                omega
              · simp at h

/-- Modelled from the spec: one symbol of a fixed-Huffman block. A literal
appends and continues via `go`, a length symbol 257-285 reads its extra
bits then a 5-bit distance code and its extra bits and copies from the
window before continuing, and symbol 256 ends the block returning the
decoded output. -/
def inflate_step (go : List Bool → List ℕ → Option (List ℕ))
    (bits : List Bool) (out : List ℕ) : Option (List ℕ) :=
  match decode_lit_len bits with
  | none => none
  | some (sym, r1) =>
    if sym = 256 then some out
    else if sym < 256 then go r1 (out ++ [sym])
    else
      if sym - 257 < 29 then
        let e := length_table.getD (sym - 257) (0, 0)
        match readLSB e.2 r1 with
        | none => none
        | some (ev, r2) =>
          let len := e.1 + ev
          match readMSB 5 0 r2 with
          | none => none
          | some (dcode, r3) =>
            if dcode < 30 then
              let de := distance_table.getD dcode (0, 0)
              match readLSB de.2 r3 with
              | none => none
              | some (dev, r4) =>
                let dist := de.1 + dev
                if 0 < dist ∧ dist ≤ out.length then
                  go r4 (lz_copy out dist len)
                else none
            else none
      else none

/-- Modelled from the spec: the symbol loop of a fixed-Huffman block,
iterating `inflate_step`. The loop is driven by a fuel counter; since
every symbol consumes at least one bit, fueling it with the bit count of
the stream (as `inflate` does) never cuts a decode short. -/
def inflate_symbols : ℕ → List Bool → List ℕ → Option (List ℕ)
  | 0, _, _ => none
  | fuel + 1, bits, out => inflate_step (inflate_symbols fuel) bits out

/-- Modelled from the spec: inflate a raw DEFLATE stream consisting of one
final fixed-Huffman block: BFINAL must be 1, BTYPE must be 01, and the
symbols run to the end-of-block code; trailing padding bits are ignored. -/
def inflate (bytes : List ℕ) : Option (List ℕ) :=
  match readBitStream (bytesBits bytes) with
  | none => none
  | some (bfinal, r) =>
    match readLSB 2 r with
    | none => none
    | some (btype, r2) =>
      if bfinal ∧ btype = 1 then inflate_symbols r2.length r2 [] else none

/-! ### Proof-level views of the bit streams -/

/-- Bits of the low `n` bits of `v`, most significant first: the order in
which a Huffman code's bits appear on the wire after the encoder's
bit-reversal. -/
def msbBits (v : ℕ) : ℕ → List Bool
  | 0 => []
  | n + 1 => msbBits (v / 2) n ++ [v % 2 == 1]

/-- The full bit stream a BitBuffer state denotes: the flushed bytes (LSB
first each) followed by the pending bits. -/
def bitsOfBuf (st : BitBuffer) : List Bool :=
  bytesBits st.bytes ++ natBits st.bit_buffer st.bit_count

/-- Invariant of the bit writer between calls: the pending accumulator
holds fewer than 8 live bits. -/
def bitbufWF (st : BitBuffer) : Prop :=
  st.bit_buffer < 2 ^ st.bit_count ∧ st.bit_count < 8

/-- The bit stream `deflateLoop` appends from position `pos` on: each
token's Huffman codes MSB-first plus LSB-first extra-bit fields. -/
def emitBits (data : List ℕ) (pos : ℕ) : List Bool :=
  if _hpos : pos < data.length then
    match _hm : find_match data pos with
    | some (dist, len) =>
      let lc := length_code_scan len 0
      let code := fixed_literal_length_code lc.1
      let dc := distance_code_scan dist 0
      (msbBits code.1 code.2 ++
        (if 0 < lc.2.1 then natBits lc.2.2 lc.2.1 else []) ++
        msbBits (fixed_distance_code dc.1).1 (fixed_distance_code dc.1).2 ++
        (if 0 < dc.2.1 then natBits dc.2.2 dc.2.1 else [])) ++
      emitBits data (pos + len)
    | none =>
      msbBits (fixed_literal_length_code (data.getD pos 0)).1
        (fixed_literal_length_code (data.getD pos 0)).2 ++
      emitBits data (pos + 1)
  else []
termination_by data.length - pos
decreasing_by
  · have := find_match_length_pos data pos dist len _hm; omega
  · omega

/-- What a length-table scan result must satisfy for the decoder to invert
it: a code in the transmissible range whose table entry plus extra-bit
value reconstructs the match length. -/
def lengthP (len : ℕ) (r : ℕ × ℕ × ℕ) : Prop :=
  257 ≤ r.1 ∧ r.1 ≤ 285 ∧
  (length_table.getD (r.1 - 257) (0, 0)).2 = r.2.1 ∧
  r.2.2 < 2 ^ r.2.1 ∧
  (length_table.getD (r.1 - 257) (0, 0)).1 + r.2.2 = len

/-- The distance analogue of `lengthP`. -/
def distP (dist : ℕ) (r : ℕ × ℕ × ℕ) : Prop :=
  r.1 ≤ 29 ∧
  (distance_table.getD r.1 (0, 0)).2 = r.2.1 ∧
  r.2.2 < 2 ^ r.2.1 ∧
  (distance_table.getD r.1 (0, 0)).1 + r.2.2 = dist

/-- What a successful `find_match` guarantees: a back-reference the
decompressor can replay byte by byte. -/
def goodMatch (data : List ℕ) (pos len dist : ℕ) : Prop :=
  3 ≤ len ∧ len ≤ 258 ∧ 1 ≤ dist ∧ dist ≤ pos ∧ dist ≤ 32768 ∧
  pos + len ≤ data.length ∧
  ∀ k, k < len → data.getD (pos - dist + k) 0 = data.getD (pos + k) 0

/-! ### Concrete instances used by counterexamples and witnesses -/

/-- The 16 input cells of a 4 x 4 grid in row-major order. -/
def c2_pairs : List (ℕ × ℕ) :=
  ((List.range 4).map (fun y => (List.range 4).map (fun x => ((x, y) : ℕ × ℕ)))).flatten

/-- A 4 x 4 input mapped onto a 1 x 1 image after adding value 1.0 once at
every input cell. -/
def c2_final : magnitude_mapped :=
  c2_pairs.foldl (fun m p => m.add_point p.1 p.2 1) (magnitude_mapped.init 4 4 1 1)

/-- A small spectrum with a non-transparent background color. -/
def c10_spectrum_bg : spectrum :=
  { spectrum.init 2 4 4 with background_color := ⟨9, 8, 7, 255⟩ }

/-! ### General helper lemmas -/

/-- Appending segments with a left fold is concatenation of the mapped
segments. -/
theorem foldl_append_flatten {α β : Type} (f : β → List α) (l : List β) (acc : List α) :
    l.foldl (fun a x => a ++ f x) acc = acc ++ (l.map f).flatten := by
  induction l generalizing acc with
  | nil => simp
  | cons b t ih => simp [ih, List.append_assoc]

/-- Length of a concatenation of equal-length segments. -/
theorem flatten_length_const {α : Type} (ls : List (List α)) (L : ℕ)
    (h : ∀ x ∈ ls, x.length = L) : ls.flatten.length = ls.length * L := by
  induction ls with
  | nil => simp
  | cons a t ih =>
    have ha := h a (by simp)
    have ht := ih (fun x hx => h x (List.mem_cons_of_mem a hx))
    simp only [List.flatten_cons, List.length_append, List.length_cons, ha, ht]
    ring

/-- Indexing into a concatenation of equal-length segments. -/
theorem flatten_getD_const {α : Type} (ls : List (List α)) (L k off : ℕ) (d : α)
    (hL : ∀ x ∈ ls, x.length = L) (hk : k < ls.length) (hoff : off < L) :
    ls.flatten.getD (k * L + off) d = (ls.getD k []).getD off d := by
  induction ls generalizing k with
  | nil => simp at hk
  | cons a t ih =>
    have ha := hL a (by simp)
    cases k with
    | zero =>
      simp only [List.flatten_cons, Nat.zero_mul, Nat.zero_add, List.getD_cons_zero]
      exact List.getD_append a t.flatten d off (by omega)
    | succ k2 =>
      have hidx : (k2 + 1) * L + off = a.length + (k2 * L + off) := by
        rw [ha]; ring
      simp only [List.flatten_cons, hidx, List.getD_cons_succ]
      rw [List.getD_append_right a t.flatten d _ (by omega)]
      have : a.length + (k2 * L + off) - a.length = k2 * L + off := by omega
      rw [this]
      exact ih k2 (fun x hx => hL x (List.mem_cons_of_mem a hx)) (by simpa using hk)

/-- Indexing a mapped range. -/
theorem getD_map_range {α : Type} (f : ℕ → α) (n k : ℕ) (d : α) (h : k < n) :
    ((List.range n).map f).getD k d = f k := by
  rw [List.getD_eq_getElem?_getD]
  simp [List.getElem?_map, List.getElem?_range h]

/-- A row-major flat index built from in-range coordinates is in range. -/
theorem flat_index_lt (x y w h : ℕ) (hx : x < w) (hy : y < h) : y * w + x < w * h := by
  calc y * w + x < (y + 1) * w := by rw [Nat.add_mul, Nat.one_mul]; omega
  _ ≤ h * w := Nat.mul_le_mul_right w (by omega)
  _ = w * h := Nat.mul_comm h w

/-! ### C9: the non-negative shift is idempotent -/

/-- C9: for every magnitude plot state, applying
`shift_buffer_to_non_negative` twice produces exactly the same buffer,
`max_magnitude` and `min_magnitude` as applying it once. -/
theorem c9_shift_idempotent (m : magnitude) :
    m.shift_buffer_to_non_negative.shift_buffer_to_non_negative
      = m.shift_buffer_to_non_negative := by
  unfold magnitude.shift_buffer_to_non_negative
  by_cases hb : m.buffer = []
  · simp [hb]
  · by_cases hmin : m.min_magnitude < 0
    · have hne : ¬(m.buffer.map (fun v => v + -m.min_magnitude) = []) := by
        simpa using hb
      simp [hb, hmin, hne]
    · simp [hb, hmin]

/-! ### C5: magnitude add_point overwrites and tracks extrema -/

/-- C5: on a fresh magnitude plot, writing V then W at the same in-range
coordinate leaves exactly W stored in the cell, with the extrema at
max(V, W) and min(V, W); V ranges over the finite binary32 values, in
keeping with the float sentinels the tracking starts from (W needs no
bound: once V displaced the sentinels the second update is exact). -/
theorem c5_overwrite (w h x y : ℕ) (V W : ℚ)
    (hx : x < w) (hy : y < h)
    (hVlo : flt_lowest ≤ V) (hVhi : V ≤ flt_max) :
    (((magnitude.init w h).add_point x y V).add_point x y W).buffer.getD (y * w + x) 0 = W ∧
    (((magnitude.init w h).add_point x y V).add_point x y W).max_magnitude = max V W ∧
    (((magnitude.init w h).add_point x y V).add_point x y W).min_magnitude = min V W := by
  have hguard : ¬(x ≥ w ∨ y ≥ h) := by omega
  have hidx : y * w + x < w * h := flat_index_lt x y w h hx hy
  unfold magnitude.add_point magnitude.init
  simp only [hguard, if_false]
  have hmax1 : (if V > flt_lowest then V else flt_lowest) = V := by
    split
    · rfl
    · next hc => have : V = flt_lowest := le_antisymm (not_lt.mp hc) hVlo; rw [this]
  have hmin1 : (if V < flt_max then V else flt_max) = V := by
    split
    · rfl
    · next hc => have : V = flt_max := le_antisymm hVhi (not_lt.mp hc); rw [this]
  simp only [hmax1, hmin1]
  refine ⟨?_, ?_, ?_⟩
  · have hlen : y * w + x < (List.replicate (w * h) (0 : ℚ)).length := by
      simpa using hidx
    rw [List.getD_eq_getElem?_getD,
      List.getElem?_set_eq_of_lt W (by simpa using hidx), Option.getD_some]
  · rcases lt_or_ge V W with hc | hc
    · simp [if_pos hc, max_eq_right hc.le]
    · simp [if_neg (not_lt.mpr hc), max_eq_left hc]
  · rcases lt_or_ge W V with hc | hc
    · simp [if_pos hc, min_eq_right hc.le]
    · simp [if_neg (not_lt.mpr hc), min_eq_left hc]

/-- Witness for c5_overwrite: a 2 x 2 plot at (1, 0) with V = 3 and
W = -2. -/
theorem c5_overwrite_witness :
    (1 < 2 ∧ 0 < 2 ∧ flt_lowest ≤ (3 : ℚ) ∧ (3 : ℚ) ≤ flt_max) ∧
    ((((magnitude.init 2 2).add_point 1 0 3).add_point 1 0 (-2)).buffer.getD (0 * 2 + 1) 0 = -2 ∧
     (((magnitude.init 2 2).add_point 1 0 3).add_point 1 0 (-2)).max_magnitude = max 3 (-2) ∧
     (((magnitude.init 2 2).add_point 1 0 3).add_point 1 0 (-2)).min_magnitude = min 3 (-2)) :=
  ⟨⟨by omega, by omega, by norm_num [flt_lowest], by norm_num [flt_max]⟩,
    c5_overwrite 2 2 1 0 3 (-2) (by omega) (by omega)
      (by norm_num [flt_lowest]) (by norm_num [flt_max])⟩

/-! ### C2: magnitude_mapped 4 x 4 onto 1 x 1 downscale -/

/-- C2 counterexample: adding value 1.0 once at every one of the 16 input
cells of a 4 x 4 grid mapped onto a 1 x 1 image does NOT leave 16.0 in the
single buffer cell.  With `end = uint32((coord + 1) * scale)` and
scale = 0.25 (exact in binary32), the target rectangle is empty unless the
input coordinate is 3, so only the add at (3, 3) writes anything. -/
theorem c2_downscale_counterexample : ¬(c2_final.buffer.getD 0 0 = 16) := by
  decide

/-- C2 amended: the same 16 adds leave exactly 1.0 in the single buffer
cell (with both extrema at 1.0): only input cell (3, 3) produces a
non-empty target rectangle, the other 15 adds touch no pixel. -/
theorem c2_downscale_sum :
    c2_final.buffer = [1] ∧ c2_final.max_magnitude = 1 ∧ c2_final.min_magnitude = 1 := by
  decide

/-! ### C4: color table interpolation -/

/-- Length of one interpolation segment. -/
theorem interpolate_color_length (c1 c2 : rgba) (steps : ℕ) :
    (interpolate_color c1 c2 steps).length = steps * 4 := by
  unfold interpolate_color
  rw [foldl_append_flatten]
  simp only [List.nil_append]
  rw [flatten_length_const _ 4 ?_]
  · simp
  · intro x hx
    simp only [List.mem_map] at hx
    obtain ⟨j, _, rfl⟩ := hx
    rfl

/-- Channel `ch` of step `i` of one interpolation segment. -/
theorem interpolate_color_getD (c1 c2 : rgba) (steps i ch : ℕ)
    (hi : i < steps) (hch : ch < 4) :
    (interpolate_color c1 c2 steps).getD (i * 4 + ch) 0 =
      ratTrunc ((c1.chan ch : ℚ) + ((i : ℚ) / ((steps : ℚ) - 1)) *
        ((c2.chan ch : ℚ) - (c1.chan ch : ℚ))) := by
  unfold interpolate_color
  rw [foldl_append_flatten]
  simp only [List.nil_append]
  rw [flatten_getD_const _ 4 i ch 0 ?_ (by simpa using hi) hch]
  · rw [getD_map_range _ _ _ _ hi]
    interval_cases ch <;> simp [interpolate_sample, rgba.chan]
  · intro x hx
    simp only [List.mem_map] at hx
    obtain ⟨j, _, rfl⟩ := hx
    rfl

/-- C4 counterexample: for key colors (0,0,0,0) and (5,5,5,5) with 3 steps,
the byte at index 4 (segment 0, step 1, red channel) is 2, the truncation
of 2.5, whereas the claimed formula round(c1 + ratio * (c2 - c1)) gives
round(2.5) = 3. -/
theorem c4_round_counterexample :
    (make_color_scheme [⟨0, 0, 0, 0⟩, ⟨5, 5, 5, 5⟩] 3).getD 4 0 = 2 ∧
    round ((0 : ℚ) + ((1 : ℚ) / ((3 : ℚ) - 1)) * ((5 : ℚ) - 0)) = 3 ∧ (2 : ℕ) ≠ 3 := by
  refine ⟨by decide, ?_, by decide⟩
  norm_num [round_eq]

/-- C4 amended: for every adjacent key pair and step index, the color-table
builder produces the sample whose every channel is the TRUNCATION (not the
rounding) of c1 + ratio * (c2 - c1) with ratio = i / (steps - 1), and the
segments of all pairs are concatenated in key order. -/
theorem c4_color_table_interpolation (keys : List rgba) (steps seg i ch : ℕ)
    (hsteps : 2 ≤ steps) (hseg : seg + 1 < keys.length) (hi : i < steps) (hch : ch < 4) :
    (make_color_scheme keys steps).length = (keys.length - 1) * (steps * 4) ∧
    (make_color_scheme keys steps).getD ((seg * steps + i) * 4 + ch) 0 =
      ratTrunc (((keys.getD seg ⟨0, 0, 0, 0⟩).chan ch : ℚ) +
        ((i : ℚ) / ((steps : ℚ) - 1)) *
          (((keys.getD (seg + 1) ⟨0, 0, 0, 0⟩).chan ch : ℚ)
            - ((keys.getD seg ⟨0, 0, 0, 0⟩).chan ch : ℚ))) := by
  have hlen2 : ¬(keys.length < 2) := by omega
  have hseglen : ∀ x ∈ (List.range (keys.length - 1)).map
      (fun j => interpolate_color (keys.getD j ⟨0, 0, 0, 0⟩)
        (keys.getD (j + 1) ⟨0, 0, 0, 0⟩) steps), x.length = steps * 4 := by
    intro x hx
    simp only [List.mem_map] at hx
    obtain ⟨j, _, rfl⟩ := hx
    exact interpolate_color_length _ _ _
  unfold make_color_scheme
  rw [if_neg hlen2, foldl_append_flatten]
  simp only [List.nil_append]
  constructor
  · rw [flatten_length_const _ (steps * 4) hseglen]
    simp
  · rw [show (seg * steps + i) * 4 + ch = seg * (steps * 4) + (i * 4 + ch) by ring]
    rw [flatten_getD_const _ (steps * 4) seg (i * 4 + ch) 0 hseglen
      (by simp; omega) (by omega)]
    rw [getD_map_range _ _ _ _ (by omega)]
    exact interpolate_color_getD _ _ steps i ch hi hch

/-- Witness for c4_color_table_interpolation: two key colors, 3 steps,
segment 0, step 1, red channel. -/
theorem c4_color_table_witness :
    (2 ≤ 3 ∧ 0 + 1 < 2 ∧ 1 < 3 ∧ 0 < 4) ∧
    ((make_color_scheme [⟨0, 0, 0, 0⟩, ⟨5, 5, 5, 5⟩] 3).length = (2 - 1) * (3 * 4) ∧
     (make_color_scheme [⟨0, 0, 0, 0⟩, ⟨5, 5, 5, 5⟩] 3).getD ((0 * 3 + 1) * 4 + 0) 0 =
       ratTrunc ((((([⟨0, 0, 0, 0⟩, ⟨5, 5, 5, 5⟩] : List rgba).getD 0 ⟨0, 0, 0, 0⟩).chan 0 : ℚ)) +
         ((1 : ℚ) / ((3 : ℚ) - 1)) *
           (((([⟨0, 0, 0, 0⟩, ⟨5, 5, 5, 5⟩] : List rgba).getD (0 + 1) ⟨0, 0, 0, 0⟩).chan 0 : ℚ)
             - ((([⟨0, 0, 0, 0⟩, ⟨5, 5, 5, 5⟩] : List rgba).getD 0 ⟨0, 0, 0, 0⟩).chan 0 : ℚ)))) :=
  ⟨⟨by omega, by omega, by omega, by omega⟩,
    c4_color_table_interpolation [⟨0, 0, 0, 0⟩, ⟨5, 5, 5, 5⟩] 3 0 1 0
      (by omega) (by simp) (by omega) (by omega)⟩

/-! ### C6: spectrum peak tracking -/

/-- The tracked peak never falls below the freshly written value. -/
theorem peak_track_ge (p v decay : ℚ) : v ≤ peak_track p v decay := by
  unfold peak_track
  split_ifs with h1 h2 h3 <;> linarith

/-- One update step stores the value at its own bin. -/
theorem update_step_buffer_self (st : spectrum) (i : ℕ) (v : ℚ)
    (h : i < st.buffer.length) : (st.update_step i v).buffer.getD i 0 = v := by
  unfold spectrum.update_step
  simp only
  rw [List.getD_eq_getElem?_getD, List.getElem?_set_eq_of_lt v h, Option.getD_some]

/-- One update step applies the peak rule at its own bin. -/
theorem update_step_peak_self (st : spectrum) (i : ℕ) (v : ℚ)
    (h : i < st.peak_values.length) :
    (st.update_step i v).peak_values.getD i 0 =
      peak_track (st.peak_values.getD i 0) v st.peak_decay := by
  unfold spectrum.update_step peak_track
  simp only
  split_ifs with h1 h2 h3 <;>
    simp [List.getD_eq_getElem?_getD, List.getElem?_set_eq_of_lt, h]

/-- One update step leaves every other bin alone. -/
theorem update_step_ne (st : spectrum) (i : ℕ) (v : ℚ) (j : ℕ) (hij : j ≠ i) :
    (st.update_step i v).buffer.getD j 0 = st.buffer.getD j 0 ∧
    (st.update_step i v).peak_values.getD j 0 = st.peak_values.getD j 0 := by
  unfold spectrum.update_step
  constructor
  · simp [List.getD_eq_getElem?_getD, List.getElem?_set_ne (fun he => hij he.symm)]
  · simp only
    split_ifs <;>
      simp [List.getD_eq_getElem?_getD, List.getElem?_set_ne (fun he => hij he.symm)]

/-- One update step preserves the structural fields. -/
theorem update_step_fields (st : spectrum) (i : ℕ) (v : ℚ) :
    (st.update_step i v).buffer.length = st.buffer.length ∧
    (st.update_step i v).peak_values.length = st.peak_values.length ∧
    (st.update_step i v).peak_decay = st.peak_decay ∧
    (st.update_step i v).num_bins = st.num_bins := by
  unfold spectrum.update_step
  refine ⟨by simp, ?_, by simp, by simp⟩
  simp only
  split_ifs <;> simp

/-- Bins below the loop counter are not touched by the rest of the update
loop. -/
theorem update_go_frame (vals : List ℚ) (size : ℕ) :
    ∀ (n : ℕ) (st : spectrum) (i : ℕ), size - i ≤ n → ∀ j, j < i →
      (spectrum.update_go st vals i size).buffer.getD j 0 = st.buffer.getD j 0 ∧
      (spectrum.update_go st vals i size).peak_values.getD j 0
        = st.peak_values.getD j 0 := by
  intro n
  induction n with
  | zero =>
    intro st i hle j hj
    rw [spectrum.update_go]
    rw [dif_neg (by omega)]
    exact ⟨rfl, rfl⟩
  | succ n ih =>
    intro st i hle j hj
    rw [spectrum.update_go]
    by_cases hc : i < size
    · rw [dif_pos hc]
      have h1 := ih (st.update_step i (vals.getD i 0)) (i + 1) (by omega) j (by omega)
      have h2 := update_step_ne st i (vals.getD i 0) j (by omega)
      exact ⟨h1.1.trans h2.1, h1.2.trans h2.2⟩
    · rw [dif_neg hc]
      exact ⟨rfl, rfl⟩

/-- Every bin the update loop writes holds the written value, with its peak
given by the peak rule applied to the pre-update peak. -/
theorem update_go_getD (vals : List ℚ) (size : ℕ) :
    ∀ (n : ℕ) (st : spectrum) (i : ℕ), size - i ≤ n →
      size ≤ st.buffer.length → size ≤ st.peak_values.length →
      ∀ j, i ≤ j → j < size →
        (spectrum.update_go st vals i size).buffer.getD j 0 = vals.getD j 0 ∧
        (spectrum.update_go st vals i size).peak_values.getD j 0 =
          peak_track (st.peak_values.getD j 0) (vals.getD j 0) st.peak_decay := by
  intro n
  induction n with
  | zero =>
    intro st i hle hsb hsp j hij hj
    omega
  | succ n ih =>
    intro st i hle hsb hsp j hij hj
    have hc : i < size := by omega
    rw [spectrum.update_go, dif_pos hc]
    have hfields := update_step_fields st i (vals.getD i 0)
    by_cases hji : j = i
    · subst hji
      have hframe := update_go_frame vals size (size - (j + 1))
        (st.update_step j (vals.getD j 0)) (j + 1) (by omega) j (by omega)
      refine ⟨hframe.1.trans ?_, hframe.2.trans ?_⟩
      · exact update_step_buffer_self st j (vals.getD j 0) (by omega)
      · exact update_step_peak_self st j (vals.getD j 0) (by omega)
    · have hrec := ih (st.update_step i (vals.getD i 0)) (i + 1) (by omega)
        (by omega) (by omega) j (by omega) hj
      have hne := update_step_ne st i (vals.getD i 0) j hji
      refine ⟨hrec.1, hrec.2.trans ?_⟩
      rw [hne.2, hfields.2.2.1]

/-- C6: after an update or update_bin call, each written bin holds the new
value, its peak follows the snap-up / decay-with-clamp rule, and in
particular the peak is at least the bin value. -/
theorem c6_peak_invariant (st : spectrum) (vals : List ℚ) (bin : ℕ) (v : ℚ)
    (hbuf : st.buffer.length = st.num_bins) (hpeak : st.peak_values.length = st.num_bins) :
    (∀ i, i < min st.num_bins vals.length →
      (st.update vals).buffer.getD i 0 = vals.getD i 0 ∧
      (st.update vals).peak_values.getD i 0 =
        peak_track (st.peak_values.getD i 0) (vals.getD i 0) st.peak_decay ∧
      (st.update vals).buffer.getD i 0 ≤ (st.update vals).peak_values.getD i 0) ∧
    (bin < st.num_bins →
      (st.update_bin bin v).buffer.getD bin 0 = v ∧
      (st.update_bin bin v).peak_values.getD bin 0 =
        peak_track (st.peak_values.getD bin 0) v st.peak_decay ∧
      (st.update_bin bin v).buffer.getD bin 0 ≤ (st.update_bin bin v).peak_values.getD bin 0) := by
  constructor
  · intro i hi
    have h := update_go_getD vals (min st.num_bins vals.length)
      (min st.num_bins vals.length) st 0 (by omega) (by omega) (by omega) i (by omega) hi
    refine ⟨h.1, h.2, ?_⟩
    unfold spectrum.update
    rw [h.1, h.2]
    exact peak_track_ge _ _ _
  · intro hbin
    unfold spectrum.update_bin
    rw [if_neg (by omega)]
    refine ⟨?_, ?_, ?_⟩
    · exact update_step_buffer_self st bin v (by omega)
    · exact update_step_peak_self st bin v (by omega)
    · rw [update_step_buffer_self st bin v (by omega),
        update_step_peak_self st bin v (by omega)]
      exact peak_track_ge _ _ _

/-- Witness for c6_peak_invariant: a fresh 2-bin spectrum updated with
values [1/2, 2], then bin 1 re-updated with 3. -/
theorem c6_peak_invariant_witness :
    ((spectrum.init 2 4 4).buffer.length = (spectrum.init 2 4 4).num_bins ∧
     (spectrum.init 2 4 4).peak_values.length = (spectrum.init 2 4 4).num_bins) ∧
    ((∀ i, i < min (spectrum.init 2 4 4).num_bins ([1 / 2, 2] : List ℚ).length →
      ((spectrum.init 2 4 4).update [1 / 2, 2]).buffer.getD i 0 = ([1 / 2, 2] : List ℚ).getD i 0 ∧
      ((spectrum.init 2 4 4).update [1 / 2, 2]).peak_values.getD i 0 =
        peak_track ((spectrum.init 2 4 4).peak_values.getD i 0)
          (([1 / 2, 2] : List ℚ).getD i 0) (spectrum.init 2 4 4).peak_decay ∧
      ((spectrum.init 2 4 4).update [1 / 2, 2]).buffer.getD i 0 ≤
        ((spectrum.init 2 4 4).update [1 / 2, 2]).peak_values.getD i 0) ∧
    (1 < (spectrum.init 2 4 4).num_bins →
      ((spectrum.init 2 4 4).update_bin 1 3).buffer.getD 1 0 = 3 ∧
      ((spectrum.init 2 4 4).update_bin 1 3).peak_values.getD 1 0 =
        peak_track ((spectrum.init 2 4 4).peak_values.getD 1 0) 3
          (spectrum.init 2 4 4).peak_decay ∧
      ((spectrum.init 2 4 4).update_bin 1 3).buffer.getD 1 0 ≤
        ((spectrum.init 2 4 4).update_bin 1 3).peak_values.getD 1 0)) :=
  ⟨⟨by decide, by decide⟩,
    c6_peak_invariant (spectrum.init 2 4 4) [1 / 2, 2] 1 3 (by decide) (by decide)⟩

/-! ### C10: rendering with an empty color table -/

/-- Reading one cell of a 4-byte group write. -/
theorem set4_getD (cb : List ℕ) (i k r g b a : ℕ) :
    ((((cb.set (i * 4) r).set (i * 4 + 1) g).set (i * 4 + 2) b).set (i * 4 + 3) a).getD k 0 =
      if k / 4 = i ∧ k < cb.length then [r, g, b, a].getD (k % 4) 0 else cb.getD k 0 := by
  by_cases hk : k / 4 = i ∧ k < cb.length
  · rw [if_pos hk]
    obtain ⟨hki, hklen⟩ := hk
    have hmod : k % 4 = 0 ∨ k % 4 = 1 ∨ k % 4 = 2 ∨ k % 4 = 3 := by omega
    rcases hmod with hm | hm | hm | hm
    · have hk4 : k = i * 4 := by omega
      subst hk4
      rw [hm, List.getD_cons_zero, List.getD_eq_getElem?_getD,
        List.getElem?_set_ne (by omega), List.getElem?_set_ne (by omega),
        List.getElem?_set_ne (by omega),
        List.getElem?_set_eq_of_lt r hklen, Option.getD_some]
    · have hk4 : k = i * 4 + 1 := by omega
      subst hk4
      rw [hm]
      simp only [List.getD_cons_succ, List.getD_cons_zero]
      rw [List.getD_eq_getElem?_getD,
        List.getElem?_set_ne (by omega), List.getElem?_set_ne (by omega),
        List.getElem?_set_eq_of_lt g (by simpa using hklen), Option.getD_some]
    · have hk4 : k = i * 4 + 2 := by omega
      subst hk4
      rw [hm]
      simp only [List.getD_cons_succ, List.getD_cons_zero]
      rw [List.getD_eq_getElem?_getD,
        List.getElem?_set_ne (by omega),
        List.getElem?_set_eq_of_lt b (by simpa using hklen), Option.getD_some]
    · have hk4 : k = i * 4 + 3 := by omega
      subst hk4
      rw [hm]
      simp only [List.getD_cons_succ, List.getD_cons_zero]
      rw [List.getD_eq_getElem?_getD,
        List.getElem?_set_eq_of_lt a (by simpa using hklen), Option.getD_some]
  · rw [if_neg hk]
    rcases Nat.lt_or_ge k cb.length with hlt | hge
    · have hne : k / 4 ≠ i := fun he => hk ⟨he, hlt⟩
      simp [List.getD_eq_getElem?_getD, List.getElem?_set_ne (show i * 4 + 3 ≠ k by omega),
        List.getElem?_set_ne (show i * 4 + 2 ≠ k by omega),
        List.getElem?_set_ne (show i * 4 + 1 ≠ k by omega),
        List.getElem?_set_ne (show i * 4 ≠ k by omega)]
    · rw [List.getD_eq_default _ _ (by simpa using hge),
        List.getD_eq_default _ _ (by omega)]

/-- Folding a 4-byte group write over a set of pixel indices, read back
pointwise. -/
theorem fill_fold_getD (r g b a : ℕ) (idxs : List ℕ) (cb : List ℕ) (k : ℕ) :
    ((idxs.foldl (fun cb2 i =>
        (((cb2.set (i * 4) r).set (i * 4 + 1) g).set (i * 4 + 2) b).set (i * 4 + 3) a) cb).getD k 0)
      = if k / 4 ∈ idxs ∧ k < cb.length then [r, g, b, a].getD (k % 4) 0 else cb.getD k 0 := by
  induction idxs generalizing cb with
  | nil => simp
  | cons i t ih =>
    simp only [List.foldl_cons]
    rw [ih]
    have hlen : ((((cb.set (i * 4) r).set (i * 4 + 1) g).set (i * 4 + 2) b).set
        (i * 4 + 3) a).length = cb.length := by simp
    rw [hlen, set4_getD]
    by_cases hmem : k / 4 ∈ t ∧ k < cb.length
    · rw [if_pos hmem, if_pos ⟨List.mem_cons_of_mem i hmem.1, hmem.2⟩]
    · rw [if_neg hmem]
      by_cases hhead : k / 4 = i ∧ k < cb.length
      · rw [if_pos hhead, if_pos ⟨by simp [hhead.1], hhead.2⟩]
      · rw [if_neg hhead, if_neg ?_]
        intro hc
        rcases List.mem_cons.mp hc.1 with he | ht
        · exact hhead ⟨he, hc.2⟩
        · exact hmem ⟨ht, hc.2⟩

/-- The group-write fold preserves the buffer length. -/
theorem fill_fold_length (r g b a : ℕ) (idxs : List ℕ) (cb : List ℕ) :
    (idxs.foldl (fun cb2 i =>
      (((cb2.set (i * 4) r).set (i * 4 + 1) g).set (i * 4 + 2) b).set (i * 4 + 3) a) cb).length
      = cb.length := by
  induction idxs generalizing cb with
  | nil => rfl
  | cons i t ih => simp [List.foldl_cons, ih]

/-- Pointwise description of `n` copies of one RGBA entry laid out flat. -/
theorem flatten_replicate4_getD (r g b a n k : ℕ) :
    ((List.replicate n [r, g, b, a]).flatten).getD k 0 =
      if k < n * 4 then [r, g, b, a].getD (k % 4) 0 else 0 := by
  induction n generalizing k with
  | zero => simp
  | succ n ih =>
    rw [List.replicate_succ, List.flatten_cons]
    rcases Nat.lt_or_ge k 4 with hk | hk
    · rw [List.getD_append _ _ 0 k (by simp; omega), if_pos (by omega)]
      have : k % 4 = k := by omega
      rw [this]
    · rw [List.getD_append_right _ _ 0 k (by simp; omega)]
      have h4 : (4 : ℕ) = [r, g, b, a].length := by simp
      have : k - [r, g, b, a].length = k - 4 := by simp
      rw [this, ih]
      have hmod : (k - 4) % 4 = k % 4 := by omega
      rw [hmod]
      by_cases hc : k - 4 < n * 4
      · rw [if_pos hc, if_pos (by omega)]
      · rw [if_neg hc, if_neg (by omega)]

/-- Length of `n` copies of one RGBA entry laid out flat. -/
theorem flatten_replicate4_length (r g b a n : ℕ) :
    ((List.replicate n [r, g, b, a]).flatten).length = n * 4 := by
  rw [flatten_length_const _ 4 (by intro x hx; simp at hx; simp [hx])]
  simp

/-- Lists agreeing pointwise under getD with equal lengths are equal. -/
theorem eq_of_getD_eq (l1 l2 : List ℕ) (hlen : l1.length = l2.length)
    (h : ∀ k, l1.getD k 0 = l2.getD k 0) : l1 = l2 := by
  apply List.ext_getElem hlen
  intro i h1 h2
  have := h i
  rwa [List.getD_eq_getElem l1 0 h1, List.getD_eq_getElem l2 0 h2] at this

/-- C10: rendering with an empty color table (zero colors) is total and
fully defined: magnitude and magnitude_mapped return the all-zero RGBA
buffer of width*height*4 bytes, and spectrum returns its background fill
(which is also all zeros when the background is the default transparent
color). -/
theorem c10_empty_color_table (m : magnitude) (mm : magnitude_mapped) (sp : spectrum)
    (sat : ℚ) (hsat : 0 < sat) :
    m.render_saturated [] sat = List.replicate (m.width * m.height * 4) 0 ∧
    mm.render_saturated [] sat = List.replicate (mm.image_width * mm.image_height * 4) 0 ∧
    sp.render_saturated [] sat =
      (List.replicate (sp.width * sp.height)
        [sp.background_color.r, sp.background_color.g,
         sp.background_color.b, sp.background_color.a]).flatten ∧
    (sp.render_saturated [] sat).length = sp.width * sp.height * 4 := by
  have hsp : sp.render_saturated [] sat =
      (List.replicate (sp.width * sp.height)
        [sp.background_color.r, sp.background_color.g,
         sp.background_color.b, sp.background_color.a]).flatten := by
    unfold spectrum.render_saturated
    simp only [get_color_count, List.length_nil, Nat.zero_div, eq_self_iff_true, if_true]
    by_cases hbg : sp.background_color ≠ transparent
    · rw [if_pos hbg]
      apply eq_of_getD_eq
      · rw [fill_fold_length, flatten_replicate4_length]
        simp
      · intro k
        rw [fill_fold_getD, flatten_replicate4_getD]
        simp only [List.length_replicate, List.mem_range]
        by_cases hc : k < sp.width * sp.height * 4
        · rw [if_pos (by constructor <;> omega), if_pos (by omega)]
        · rw [if_neg (by intro hh; omega), if_neg (by omega)]
          rw [List.getD_eq_default _ _ (by simp; omega)]
    · rw [if_neg hbg]
      push_neg at hbg
      rw [hbg]
      apply eq_of_getD_eq
      · rw [flatten_replicate4_length]
        simp
      · intro k
        rw [flatten_replicate4_getD]
        by_cases hc : k < sp.width * sp.height * 4
        · rw [if_pos hc, List.getD_eq_getElem _ _ (by simpa using hc),
            List.getElem_replicate]
          rcases (by omega : k % 4 = 0 ∨ k % 4 = 1 ∨ k % 4 = 2 ∨ k % 4 = 3) with
            h | h | h | h <;> rw [h] <;> rfl
        · rw [if_neg hc, List.getD_eq_default _ _ (by simpa using hc)]
  exact ⟨rfl, rfl, hsp, by rw [hsp, flatten_replicate4_length]⟩

/-- Witness for c10_empty_color_table: small plots, unit saturation, and a
non-transparent spectrum background. -/
theorem c10_empty_color_table_witness :
    (0 : ℚ) < 1 ∧
    ((magnitude.init 2 2).render_saturated [] 1 = List.replicate (2 * 2 * 4) 0 ∧
     (magnitude_mapped.init 2 2 3 3).render_saturated [] 1 = List.replicate (3 * 3 * 4) 0 ∧
     c10_spectrum_bg.render_saturated [] 1 = (List.replicate (4 * 4) [9, 8, 7, 255]).flatten ∧
     (c10_spectrum_bg.render_saturated [] 1).length = 4 * 4 * 4) :=
  ⟨by norm_num,
    c10_empty_color_table (magnitude.init 2 2) (magnitude_mapped.init 2 2 3 3)
      c10_spectrum_bg 1 (by norm_num)⟩

/-! ### C7: heatmap stamp clipping -/

/-- If every step of a fold changes buffer cells only at indices satisfying
P, so does the whole fold. -/
theorem foldl_buffer_changes {α : Type} (P : ℕ → Prop) (f : heatmap → α → heatmap)
    (l : List α)
    (H : ∀ acc a, a ∈ l → ∀ i, (f acc a).buffer.getD i 0 ≠ acc.buffer.getD i 0 → P i) :
    ∀ hm0 i, (l.foldl f hm0).buffer.getD i 0 ≠ hm0.buffer.getD i 0 → P i := by
  induction l with
  | nil => intro hm0 i h; simp at h
  | cons a t ih =>
    intro hm0 i h
    simp only [List.foldl_cons] at h
    by_cases hmid : (t.foldl f (f hm0 a)).buffer.getD i 0 = (f hm0 a).buffer.getD i 0
    · exact H hm0 a (by simp) i (fun he => h (hmid.trans he))
    · exact ih (fun acc b hb => H acc b (List.mem_cons_of_mem _ hb)) (f hm0 a) i hmid

/-- C7: for an in-range anchor, `add_point_with_stamp` changes only buffer
cells whose row-major coordinates lie in the clipped overlap rectangle of
the stamp and the buffer; in particular every touched flat index is inside
the width*height buffer and nothing wraps to another row or off any of the
four edges. -/
theorem c7_stamp_clipping (hm : heatmap) (x y : ℕ) (stamp : heatmap_stamp)
    (hx : x < hm.width) (hy : y < hm.height) :
    ∀ i, (hm.add_point_with_stamp x y stamp).buffer.getD i 0 ≠ hm.buffer.getD i 0 →
      i < hm.width * hm.height ∧
      x - stamp.w / 2 ≤ i % hm.width ∧
      i % hm.width < min (x + (stamp.w - stamp.w / 2)) hm.width ∧
      y - stamp.h / 2 ≤ i / hm.width ∧
      i / hm.width < min (y + (stamp.h - stamp.h / 2)) hm.height := by
  have hw : 0 < hm.width := by omega
  unfold heatmap.add_point_with_stamp
  rw [if_neg (by omega)]
  intro i hchanged
  refine foldl_buffer_changes (fun i => i < hm.width * hm.height ∧
      x - stamp.w / 2 ≤ i % hm.width ∧
      i % hm.width < min (x + (stamp.w - stamp.w / 2)) hm.width ∧
      y - stamp.h / 2 ≤ i / hm.width ∧
      i / hm.width < min (y + (stamp.h - stamp.h / 2)) hm.height) _ _ ?_ hm i hchanged
  intro acc iy hiy j hrow
  rw [List.mem_range'_1] at hiy
  refine foldl_buffer_changes (fun j => j < hm.width * hm.height ∧
      x - stamp.w / 2 ≤ j % hm.width ∧
      j % hm.width < min (x + (stamp.w - stamp.w / 2)) hm.width ∧
      y - stamp.h / 2 ≤ j / hm.width ∧
      j / hm.width < min (y + (stamp.h - stamp.h / 2)) hm.height) _ _ ?_ acc j hrow
  intro acc2 ix hix k hcell
  rw [List.mem_range'_1] at hix
  simp only at hcell
  have hk : k = ((y + iy) - stamp.h / 2) * hm.width + ((x + ix) - stamp.w / 2) := by
    by_contra hne
    exact hcell (by
      simp [List.getD_eq_getElem?_getD, List.getElem?_set_ne (fun he => hne he.symm)])
  set bx := (x + ix) - stamp.w / 2 with hbx_def
  set by' := (y + iy) - stamp.h / 2 with hby_def
  have hxbounds : x - stamp.w / 2 ≤ bx ∧
      bx < min (x + (stamp.w - stamp.w / 2)) hm.width := by
    constructor
    · split_ifs at hix <;> omega
    · split_ifs at hix <;> omega
  have hybounds : y - stamp.h / 2 ≤ by' ∧
      by' < min (y + (stamp.h - stamp.h / 2)) hm.height := by
    constructor
    · split_ifs at hiy <;> omega
    · split_ifs at hiy <;> omega
  have hbxw : bx < hm.width := by omega
  have hbyh : by' < hm.height := by omega
  have hcomm : by' * hm.width + bx = bx + by' * hm.width := by ring
  have hmod : k % hm.width = bx := by
    rw [hk, hcomm, Nat.add_mul_mod_self_right, Nat.mod_eq_of_lt hbxw]
  have hdiv : k / hm.width = by' := by
    rw [hk, hcomm, Nat.add_mul_div_right _ _ hw, Nat.div_eq_of_lt hbxw, Nat.zero_add]
  refine ⟨?_, ?_, ?_, ?_, ?_⟩
  · rw [hk]
    exact flat_index_lt bx by' hm.width hm.height hbxw hbyh
  · rw [hmod]; exact hxbounds.1
  · rw [hmod]; exact hxbounds.2
  · rw [hdiv]; exact hybounds.1
  · rw [hdiv]; exact hybounds.2

/-- Witness for c7_stamp_clipping: a radius-4 (9 x 9, all-ones) stamp
anchored at (0, 0) on a 3 x 3 heatmap. -/
theorem c7_stamp_clipping_witness :
    (0 < 3 ∧ 0 < 3) ∧
    (∀ i, ((heatmap.init 3 3).add_point_with_stamp 0 0
        ⟨9, 9, List.replicate 81 1⟩).buffer.getD i 0
        ≠ (heatmap.init 3 3).buffer.getD i 0 →
      i < 3 * 3 ∧
      0 - 9 / 2 ≤ i % 3 ∧ i % 3 < min (0 + (9 - 9 / 2)) 3 ∧
      0 - 9 / 2 ≤ i / 3 ∧ i / 3 < min (0 + (9 - 9 / 2)) 3) :=
  ⟨⟨by omega, by omega⟩,
    c7_stamp_clipping (heatmap.init 3 3) 0 0 ⟨9, 9, List.replicate 81 1⟩
      (by decide) (by decide)⟩

/-! ### C3: adaptive filter selection -/

/-- A signed 8-bit absolute value is at most 128. -/
theorem signedAbs_le (b : ℕ) : signedAbs b ≤ 128 := by
  unfold signedAbs
  split <;> omega

/-- The exact sum of signed absolute values is bounded by 128 per byte. -/
theorem mapsum_signedAbs_le (l : List ℕ) : (l.map signedAbs).sum ≤ 128 * l.length := by
  induction l with
  | nil => simp
  | cons b t ih =>
    simp only [List.map_cons, List.sum_cons, List.length_cons]
    have := signedAbs_le b
    omega

/-- When the exact sum fits a uint32, the accumulated uint32 sum equals
it. -/
theorem sum_abs_u32_eq_aux (l : List ℕ) :
    ∀ s, s + (l.map signedAbs).sum < 2 ^ 32 →
      l.foldl (fun s b => (s + signedAbs b) % 2 ^ 32) s = s + (l.map signedAbs).sum := by
  induction l with
  | nil => intro s _; simp
  | cons b t ih =>
    intro s hs
    simp only [List.map_cons, List.sum_cons] at hs
    simp only [List.foldl_cons]
    rw [Nat.mod_eq_of_lt (by omega)]
    rw [ih (s + signedAbs b) (by omega)]
    simp only [List.map_cons, List.sum_cons]
    omega

/-- When the exact sum fits a uint32, `sum_abs_u32` computes it. -/
theorem sum_abs_u32_eq (l : List ℕ) (h : (l.map signedAbs).sum < 2 ^ 32) :
    sum_abs_u32 l = (l.map signedAbs).sum := by
  unfold sum_abs_u32
  simpa using sum_abs_u32_eq_aux l 0 (by omega)

/-- Each candidate's data part has the row's length. -/
theorem apply_filter_data_length (f : ℕ) (row : List ℕ) (prev : Option (List ℕ)) (bpp : ℕ)
    (hf : f < 5) : ((apply_filter f row prev bpp).drop 1).length = row.length := by
  interval_cases f <;>
    simp [apply_filter, apply_none_filter, apply_sub_filter, apply_up_filter,
      apply_average_filter, apply_paeth_filter]

/-- C3: for rows short enough that the uint32 sums cannot wrap (any row up
to 2^25 bytes, far beyond any allocatable PNG row), the selected filter has
the smallest sum of absolute signed filtered data bytes among the five
candidates, with ties resolved toward the lower filter-type number. -/
theorem c3_best_filter (row : List ℕ) (prev : Option (List ℕ)) (bpp : ℕ)
    (hrow : 128 * row.length < 2 ^ 32 - 1) :
    select_best_filter row prev bpp < 5 ∧
    ∀ f, f < 5 →
      (((apply_filter (select_best_filter row prev bpp) row prev bpp).drop 1).map signedAbs).sum
          < (((apply_filter f row prev bpp).drop 1).map signedAbs).sum ∨
      ((((apply_filter (select_best_filter row prev bpp) row prev bpp).drop 1).map signedAbs).sum
          = (((apply_filter f row prev bpp).drop 1).map signedAbs).sum ∧
        select_best_filter row prev bpp ≤ f) := by
  have hbound : ∀ f, f < 5 →
      (((apply_filter f row prev bpp).drop 1).map signedAbs).sum < 2 ^ 32 - 1 := by
    intro f hf
    have h1 := mapsum_signedAbs_le ((apply_filter f row prev bpp).drop 1)
    rw [apply_filter_data_length f row prev bpp hf] at h1
    omega
  have hs : ∀ f, f < 5 → sum_abs_u32 ((apply_filter f row prev bpp).drop 1)
      = (((apply_filter f row prev bpp).drop 1).map signedAbs).sum := by
    intro f hf
    exact sum_abs_u32_eq _ (by have := hbound f hf; omega)
  have h0 := hbound 0 (by omega)
  have h1 := hbound 1 (by omega)
  have h2 := hbound 2 (by omega)
  have h3 := hbound 3 (by omega)
  have h4 := hbound 4 (by omega)
  unfold select_best_filter
  rw [show List.range 5 = [0, 1, 2, 3, 4] from rfl]
  simp only [List.foldl_cons, List.foldl_nil]
  rw [hs 0 (by omega), hs 1 (by omega), hs 2 (by omega), hs 3 (by omega), hs 4 (by omega)]
  split_ifs <;>
    (dsimp only
     refine ⟨by omega, ?_⟩
     intro f hf
     interval_cases f <;> omega)

/-- Witness for c3_best_filter: a two-byte row with no previous scanline
and one byte per pixel. -/
theorem c3_best_filter_witness :
    128 * ([10, 20] : List ℕ).length < 2 ^ 32 - 1 ∧
    (select_best_filter [10, 20] none 1 < 5 ∧
    ∀ f, f < 5 →
      (((apply_filter (select_best_filter [10, 20] none 1) [10, 20] none 1).drop 1).map
          signedAbs).sum
          < (((apply_filter f [10, 20] none 1).drop 1).map signedAbs).sum ∨
      ((((apply_filter (select_best_filter [10, 20] none 1) [10, 20] none 1).drop 1).map
          signedAbs).sum
          = (((apply_filter f [10, 20] none 1).drop 1).map signedAbs).sum ∧
        select_best_filter [10, 20] none 1 ≤ f)) :=
  ⟨by norm_num, c3_best_filter [10, 20] none 1 (by norm_num)⟩

/-! ### C8: color-type validation and the encode path -/

/-- A PNGImage carrying the unsupported color type 0 (grayscale), as the
public API can never produce but `encode_png` accepts. -/
def c8_bad_image : PNGImage :=
  { width := 1, height := 1, bit_depth := 8, color_type := 0, data := [1, 2, 3, 4] }

/-- C8 counterexample: calling `encode_png` with an image whose color type
is 0 (outside RGB/RGBA) is NOT rejected: the function succeeds (returns
true) and writes a non-empty file, because `encode_png` performs no
color-type validation and treats any non-RGB type as 4 bytes per pixel. -/
theorem c8_encode_accepts_bad_color_type :
    (encode_png c8_bad_image).isSome = true ∧ (encode_png c8_bad_image).getD [] ≠ [] := by
  constructor
  · rfl
  · unfold encode_png png_signature
    simp

/-- C8 amended: the rejection of unsupported color types happens at image
creation, not in `encode_png`: `create_png_image` returns NULL (none) for
every color type other than 2 and 6, before any I/O can happen, so no image
with an unsupported color type can reach `encode_png` through the API. -/
theorem c8_create_png_image_rejects (w h ct : ℕ) (data : List ℕ)
    (h2 : ct ≠ 2) (h6 : ct ≠ 6) :
    create_png_image w h ct data = none := by
  unfold create_png_image
  rw [if_pos ⟨h2, h6⟩]

/-- Witness for c8_create_png_image_rejects at color type 0. -/
theorem c8_create_png_image_rejects_witness :
    ((0 : ℕ) ≠ 2 ∧ (0 : ℕ) ≠ 6) ∧ create_png_image 1 1 0 [1, 2, 3, 4] = none :=
  ⟨⟨by omega, by omega⟩, c8_create_png_image_rejects 1 1 0 [1, 2, 3, 4] (by omega) (by omega)⟩

/-! ### C1: bit-stream arithmetic -/

/-- Zero contributes only zero bits. -/
theorem natBits_zero_val (n : ℕ) : natBits 0 n = List.replicate n false := by
  induction n with
  | zero => rfl
  | succ n ih => simp [natBits, ih, List.replicate_succ]

/-- Low bits ignore multiples of 2^n. -/
theorem natBits_add_mul_pow (n : ℕ) : ∀ a b : ℕ, natBits (a + b * 2 ^ n) n = natBits a n := by
  induction n with
  | zero => intro a b; rfl
  | succ n ih =>
    intro a b
    have h2 : a + b * 2 ^ (n + 1) = a + b * 2 ^ n * 2 := by ring
    simp only [natBits, h2]
    rw [Nat.add_mul_mod_self_right, Nat.add_mul_div_right _ _ (by omega : 0 < 2), ih]

/-- Splitting an LSB-first bit field. -/
theorem natBits_split (m : ℕ) : ∀ (n a : ℕ),
    natBits a (m + n) = natBits a m ++ natBits (a / 2 ^ m) n := by
  induction m with
  | zero => intro n a; simp [natBits]
  | succ m ih =>
    intro n a
    have hidx : m + 1 + n = (m + n) + 1 := by omega
    rw [hidx]
    simp only [natBits, List.cons_append]
    rw [ih n (a / 2)]
    have : a / 2 / 2 ^ m = a / 2 ^ (m + 1) := by
      rw [Nat.div_div_eq_div_mul, pow_succ]
      ring_nf
    rw [this]

/-- ORing fresh bits above a small accumulator is addition. -/
theorem lor_shiftLeft_add (k a b : ℕ) (h : a < 2 ^ k) : a ||| (b <<< k) = a + b * 2 ^ k := by
  apply Nat.eq_of_testBit_eq
  intro j
  rw [Nat.testBit_lor, Nat.testBit_shiftLeft]
  have hadd : a + b * 2 ^ k = 2 ^ k * b + a := by ring
  rw [hadd, Nat.testBit_mul_pow_two_add b h j]
  by_cases hj : j < k
  · rw [if_pos hj]
    simp [Nat.not_le.mpr hj]
  · rw [if_neg hj]
    have hfa : Nat.testBit a j = false :=
      Nat.testBit_lt_two_pow (lt_of_lt_of_le h (Nat.pow_le_pow_right (by omega) (by omega)))
    simp [hfa, Nat.not_lt.mp hj]

/-- Byte streams concatenate bitwise. -/
theorem bytesBits_append (l1 l2 : List ℕ) :
    bytesBits (l1 ++ l2) = bytesBits l1 ++ bytesBits l2 := by
  unfold bytesBits
  rw [List.map_append, List.flatten_append]

/-- The drain loop only moves pending bits into the byte stream. -/
theorem drainBits_spec : ∀ (n : ℕ) (acc : ℕ) (bytes : List ℕ), acc < 2 ^ n →
    bytesBits (drainBits bytes acc n).1 ++
        natBits (drainBits bytes acc n).2.1 (drainBits bytes acc n).2.2
      = bytesBits bytes ++ natBits acc n ∧
    (drainBits bytes acc n).2.1 < 2 ^ (drainBits bytes acc n).2.2 ∧
    (drainBits bytes acc n).2.2 < 8 := by
  intro n
  induction n using Nat.strong_induction_on with
  | _ n ih =>
    intro acc bytes hacc
    rw [drainBits]
    by_cases hn : 8 ≤ n
    · rw [dif_pos hn]
      have hdiv : acc / 256 < 2 ^ (n - 8) := by
        rw [Nat.div_lt_iff_lt_mul (by omega : 0 < 256)]
        calc acc < 2 ^ n := hacc
        _ = 2 ^ (n - 8) * 256 := by
          rw [show (256 : ℕ) = 2 ^ 8 from rfl, ← pow_add]
          congr 1
          omega
      have hrec := ih (n - 8) (by omega) (acc / 256) (bytes ++ [acc % 256]) hdiv
      refine ⟨?_, hrec.2.1, hrec.2.2⟩
      rw [hrec.1, bytesBits_append]
      have hsplit : natBits acc n = natBits (acc % 256) 8 ++ natBits (acc / 256) (n - 8) := by
        conv_lhs => rw [show n = 8 + (n - 8) from by omega]
        rw [natBits_split 8 (n - 8) acc]
        congr 1
        · conv_lhs => rw [show acc = acc % 256 + acc / 256 * 2 ^ 8 from by omega]
          rw [natBits_add_mul_pow]
      rw [hsplit]
      have hbyte : bytesBits [acc % 256] = natBits (acc % 256) 8 := by
        unfold bytesBits
        simp
      rw [hbyte, List.append_assoc]
    · rw [dif_neg hn]
      exact ⟨rfl, hacc, by show n < 8; omega⟩

/-- Specification of `write_bits`: it appends exactly the low `count` bits
of `bits` to the stream and preserves the writer invariant (for the call
shapes the compressor uses: at most 16 bits at a time). -/
theorem write_bits_spec (st : BitBuffer) (bits count : ℕ) (hwf : bitbufWF st)
    (hb : bits < 2 ^ count) (hcount : count ≤ 16) :
    bitsOfBuf (write_bits st bits count) = bitsOfBuf st ++ natBits bits count ∧
    bitbufWF (write_bits st bits count) := by
  obtain ⟨hacc, hbc⟩ := hwf
  unfold write_bits
  have hshift : (bits <<< st.bit_count) % 2 ^ 32 = bits <<< st.bit_count := by
    apply Nat.mod_eq_of_lt
    rw [Nat.shiftLeft_eq]
    calc bits * 2 ^ st.bit_count < 2 ^ count * 2 ^ st.bit_count :=
      (Nat.mul_lt_mul_right (Nat.two_pow_pos _)).mpr hb
    _ = 2 ^ (count + st.bit_count) := by rw [← pow_add]
    _ ≤ 2 ^ 24 := Nat.pow_le_pow_right (by omega) (by omega)
    _ < 2 ^ 32 := by norm_num
  rw [hshift, lor_shiftLeft_add st.bit_count st.bit_buffer bits hacc]
  have hsum : st.bit_buffer + bits * 2 ^ st.bit_count < 2 ^ (st.bit_count + count) := by
    calc st.bit_buffer + bits * 2 ^ st.bit_count
        < 2 ^ st.bit_count + bits * 2 ^ st.bit_count := by omega
    _ = (bits + 1) * 2 ^ st.bit_count := by ring
    _ ≤ 2 ^ count * 2 ^ st.bit_count := Nat.mul_le_mul_right _ (by omega)
    _ = 2 ^ (st.bit_count + count) := by rw [← pow_add, Nat.add_comm]
  have hdr := drainBits_spec (st.bit_count + count)
    (st.bit_buffer + bits * 2 ^ st.bit_count) st.bytes hsum
  refine ⟨?_, hdr.2.1, hdr.2.2⟩
  unfold bitsOfBuf
  simp only
  rw [hdr.1]
  have hkey : natBits (st.bit_buffer + bits * 2 ^ st.bit_count) (st.bit_count + count)
      = natBits st.bit_buffer st.bit_count ++ natBits bits count := by
    rw [natBits_split st.bit_count count]
    congr 1
    · exact natBits_add_mul_pow st.bit_count st.bit_buffer bits
    · congr 1
      rw [Nat.add_mul_div_right _ _ (Nat.two_pow_pos _), Nat.div_eq_of_lt hacc,
        Nat.zero_add]
  rw [hkey, List.append_assoc]

/-- Specification of `flush_bit_buffer`: the final byte stream is the
pending stream padded with zero bits. -/
theorem flush_bit_buffer_spec (st : BitBuffer) (hwf : bitbufWF st) :
    bytesBits (flush_bit_buffer st).bytes
      = bitsOfBuf st ++
        List.replicate (if 0 < st.bit_count then 8 - st.bit_count else 0) false := by
  obtain ⟨hacc, hbc⟩ := hwf
  unfold flush_bit_buffer bitsOfBuf
  by_cases hc : 0 < st.bit_count
  · rw [if_pos hc, if_pos hc]
    simp only
    rw [bytesBits_append]
    have hbyte : bytesBits [st.bit_buffer % 256] = natBits (st.bit_buffer % 256) 8 := by
      unfold bytesBits
      simp
    have hmod : st.bit_buffer % 256 = st.bit_buffer := by
      apply Nat.mod_eq_of_lt
      calc st.bit_buffer < 2 ^ st.bit_count := hacc
      _ ≤ 2 ^ 8 := Nat.pow_le_pow_right (by omega) (by omega)
      _ = 256 := rfl
    rw [hbyte, hmod]
    conv_lhs => rw [show (8 : ℕ) = st.bit_count + (8 - st.bit_count) from by omega]
    rw [natBits_split st.bit_count (8 - st.bit_count) st.bit_buffer,
      Nat.div_eq_of_lt hacc, natBits_zero_val, List.append_assoc]
  · rw [if_neg hc, if_neg hc]
    have hz : st.bit_count = 0 := by omega
    rw [hz]
    simp [natBits]

/-! ### C1: Huffman code transmission and decoding -/

/-- An MSB-first code field has as many bits as its width. -/
theorem msbBits_length (v n : ℕ) : (msbBits v n).length = n := by
  induction n generalizing v with
  | zero => rfl
  | succ n ih => simp [msbBits, ih]

/-- The loop of `reverse_bits` sends LSB-first packing to MSB-first code
order. -/
theorem reverse_bits_go_eq (n : ℕ) : ∀ (v acc k : ℕ), acc < 2 ^ k →
    natBits (reverse_bits_go v n acc) (n + k) = msbBits v n ++ natBits acc k := by
  induction n with
  | zero =>
    intro v acc k _
    simp [reverse_bits_go, msbBits, Nat.zero_add]
  | succ n ih =>
    intro v acc k h
    have hp : (2 : ℕ) ^ (k + 1) = 2 * 2 ^ k := by ring
    have h2 : 2 * acc + v % 2 < 2 ^ (k + 1) := by omega
    have hrec := ih (v / 2) (2 * acc + v % 2) (k + 1) h2
    rw [show n + (k + 1) = (n + 1) + k from by omega] at hrec
    rw [show reverse_bits_go v (n + 1) acc
      = reverse_bits_go (v / 2) n (2 * acc + v % 2) from rfl, hrec]
    have hnb : natBits (2 * acc + v % 2) (k + 1) = (v % 2 == 1) :: natBits acc k := by
      simp only [natBits]
      congr 1
      · congr 1
        omega
      · congr 1
        omega
    rw [hnb, show msbBits v (n + 1) = msbBits (v / 2) n ++ [v % 2 == 1] from rfl,
      List.append_assoc]
    rfl

/-- On the wire, a bit-reversed code read LSB-first is the code MSB-first. -/
theorem natBits_reverse_bits (v n : ℕ) :
    natBits (reverse_bits v n) n = msbBits v n := by
  have h := reverse_bits_go_eq n v 0 0 (by norm_num)
  simpa [reverse_bits, natBits] using h

/-- The reversal loop stays below 2^(k + n). -/
theorem reverse_bits_go_lt (n : ℕ) : ∀ (v acc k : ℕ), acc < 2 ^ k →
    reverse_bits_go v n acc < 2 ^ (k + n) := by
  induction n with
  | zero =>
    intro v acc k h
    simpa [reverse_bits_go] using h
  | succ n ih =>
    intro v acc k h
    have hp : (2 : ℕ) ^ (k + 1) = 2 * 2 ^ k := by ring
    have h2 : 2 * acc + v % 2 < 2 ^ (k + 1) := by omega
    have := ih (v / 2) (2 * acc + v % 2) (k + 1) h2
    rw [show k + 1 + n = k + (n + 1) from by omega] at this
    exact this

/-- A reversed `n`-bit code fits in `n` bits. -/
theorem reverse_bits_lt (v n : ℕ) : reverse_bits v n < 2 ^ n := by
  have := reverse_bits_go_lt n v 0 0 (by norm_num)
  simpa [reverse_bits] using this

/-- Reading exactly the length of a prefix accumulates over it. -/
theorem readMSB_exact (l : List Bool) : ∀ (acc : ℕ) (rest : List Bool),
    readMSB l.length acc (l ++ rest)
      = some (l.foldl (fun a b => 2 * a + (if b then 1 else 0)) acc, rest) := by
  induction l with
  | nil => intro acc rest; rfl
  | cons b t ih =>
    intro acc rest
    simp only [List.length_cons, List.cons_append, readMSB, List.foldl_cons]
    exact ih (2 * acc + if b then 1 else 0) rest

/-- Accumulating over an MSB-first field recovers the value. -/
theorem foldl_msbBits (n : ℕ) : ∀ (v acc : ℕ), v < 2 ^ n →
    (msbBits v n).foldl (fun a b => 2 * a + (if b then 1 else 0)) acc
      = acc * 2 ^ n + v := by
  induction n with
  | zero =>
    intro v acc hv
    interval_cases v
    simp [msbBits]
  | succ n ih =>
    intro v acc hv
    rw [show msbBits v (n + 1) = msbBits (v / 2) n ++ [v % 2 == 1] from rfl,
      List.foldl_append]
    rw [ih (v / 2) acc (by omega)]
    simp only [List.foldl_cons, List.foldl_nil]
    have hbit : (if (v % 2 == 1) = true then 1 else 0) = v % 2 := by
      rcases Nat.mod_two_eq_zero_or_one v with h | h <;> simp [h]
    rw [hbit]
    calc 2 * (acc * 2 ^ n + v / 2) + v % 2
        = acc * (2 ^ n * 2) + (2 * (v / 2) + v % 2) := by ring
    _ = acc * 2 ^ (n + 1) + v := by
        rw [← pow_succ]
        congr 1
        omega

/-- Reading a transmitted MSB-first code field recovers the code. -/
theorem readMSB_msbBits (n v : ℕ) (rest : List Bool) (hv : v < 2 ^ n) :
    readMSB n 0 (msbBits v n ++ rest) = some (v, rest) := by
  have h := readMSB_exact (msbBits v n) 0 rest
  rw [msbBits_length] at h
  rw [h, foldl_msbBits n v 0 hv]
  simp

/-- Reading a transmitted LSB-first extra-bit field recovers the value. -/
theorem readLSB_natBits (n : ℕ) : ∀ (v : ℕ) (rest : List Bool), v < 2 ^ n →
    readLSB n (natBits v n ++ rest) = some (v, rest) := by
  induction n with
  | zero =>
    intro v rest hv
    interval_cases v
    rfl
  | succ n ih =>
    intro v rest hv
    simp only [natBits, List.cons_append, readLSB]
    rw [show (natBits (v / 2) n).append rest = natBits (v / 2) n ++ rest from rfl,
      ih (v / 2) rest (by omega)]
    have hbit : (if (v % 2 == 1) = true then 1 else 0) + 2 * (v / 2) = v := by
      rcases Nat.mod_two_eq_zero_or_one v with h | h <;> simp [h] <;> omega
    dsimp only
    rw [hbit]

/-- Decoding a 7-bit fixed code (codes 0-23 are symbols 256-279). -/
theorem decode_fixed7 (c : ℕ) (rest : List Bool) (hc : c ≤ 23) :
    decode_lit_len (msbBits c 7 ++ rest) = some (256 + c, rest) := by
  unfold decode_lit_len
  rw [readMSB_msbBits 7 c rest (by omega)]
  dsimp only
  rw [if_pos hc]

/-- Decoding an 8-bit fixed code (codes 48-191 are symbols 0-143, codes
192-199 are symbols 280-287). -/
theorem decode_fixed8 (c : ℕ) (rest : List Bool) (h1 : 48 ≤ c) (h2 : c ≤ 199) :
    decode_lit_len (msbBits c 8 ++ rest)
      = some (if c ≤ 191 then c - 48 else 280 + (c - 192), rest) := by
  unfold decode_lit_len
  rw [show msbBits c 8 = msbBits (c / 2) 7 ++ [c % 2 == 1] from rfl, List.append_assoc]
  rw [readMSB_msbBits 7 (c / 2) _ (by omega)]
  dsimp only
  rw [if_neg (by omega : ¬ c / 2 ≤ 23)]
  rw [show ([c % 2 == 1] : List Bool) ++ rest = (c % 2 == 1) :: rest from rfl]
  rw [show readMSB 1 (c / 2) ((c % 2 == 1) :: rest)
    = some (2 * (c / 2) + (if (c % 2 == 1) = true then 1 else 0), rest) from rfl]
  dsimp only
  have hbit : 2 * (c / 2) + (if (c % 2 == 1) = true then 1 else 0) = c := by
    rcases Nat.mod_two_eq_zero_or_one c with h | h <;> simp [h] <;> omega
  rw [hbit]
  by_cases hc : c ≤ 191
  · rw [if_pos hc]
    rw [if_pos (by omega : 48 ≤ c ∧ c ≤ 191)]
  · rw [if_neg hc]
    rw [if_neg (by omega : ¬(48 ≤ c ∧ c ≤ 191)),
      if_pos (by omega : 192 ≤ c ∧ c ≤ 199)]

/-- Decoding a 9-bit fixed code (codes 400-511 are symbols 144-255). -/
theorem decode_fixed9 (c : ℕ) (rest : List Bool) (h1 : 400 ≤ c) (h2 : c ≤ 511) :
    decode_lit_len (msbBits c 9 ++ rest) = some (144 + (c - 400), rest) := by
  unfold decode_lit_len
  rw [show msbBits c 9 = (msbBits (c / 4) 7 ++ [c / 2 % 2 == 1]) ++ [c % 2 == 1] from by
    rw [show msbBits c 9 = msbBits (c / 2) 8 ++ [c % 2 == 1] from rfl,
      show msbBits (c / 2) 8 = msbBits (c / 2 / 2) 7 ++ [c / 2 % 2 == 1] from rfl,
      Nat.div_div_eq_div_mul]]
  rw [List.append_assoc, List.append_assoc]
  rw [readMSB_msbBits 7 (c / 4) _ (by omega)]
  dsimp only
  rw [if_neg (by omega : ¬ c / 4 ≤ 23)]
  rw [show ([c / 2 % 2 == 1] : List Bool) ++ ([c % 2 == 1] ++ rest)
    = (c / 2 % 2 == 1) :: ((c % 2 == 1) :: rest) from rfl]
  rw [show readMSB 1 (c / 4) ((c / 2 % 2 == 1) :: ((c % 2 == 1) :: rest))
    = some (2 * (c / 4) + (if (c / 2 % 2 == 1) = true then 1 else 0),
        (c % 2 == 1) :: rest) from rfl]
  dsimp only
  have hb1 : 2 * (c / 4) + (if (c / 2 % 2 == 1) = true then 1 else 0) = c / 2 := by
    rcases Nat.mod_two_eq_zero_or_one (c / 2) with h | h <;> simp [h] <;> omega
  rw [hb1]
  rw [if_neg (by omega : ¬(48 ≤ c / 2 ∧ c / 2 ≤ 191)),
    if_neg (by omega : ¬(192 ≤ c / 2 ∧ c / 2 ≤ 199))]
  rw [show readMSB 1 (c / 2) ((c % 2 == 1) :: rest)
    = some (2 * (c / 2) + (if (c % 2 == 1) = true then 1 else 0), rest) from rfl]
  dsimp only
  have hb0 : 2 * (c / 2) + (if (c % 2 == 1) = true then 1 else 0) = c := by
    rcases Nat.mod_two_eq_zero_or_one c with h | h <;> simp [h] <;> omega
  rw [hb0]
  rw [if_pos (by omega : 400 ≤ c ∧ c ≤ 511)]

/-- Decoding the transmitted fixed code of any symbol recovers the
symbol. -/
theorem decode_fixed_sym (sym : ℕ) (rest : List Bool) (hsym : sym ≤ 287) :
    decode_lit_len (msbBits (fixed_literal_length_code sym).1
      (fixed_literal_length_code sym).2 ++ rest) = some (sym, rest) := by
  unfold fixed_literal_length_code
  by_cases h143 : sym ≤ 143
  · rw [if_pos h143]
    simp only
    rw [decode_fixed8 (sym + 48) rest (by omega) (by omega),
      if_pos (by omega : sym + 48 ≤ 191),
      show sym + 48 - 48 = sym from by omega]
  · rw [if_neg h143]
    by_cases h255 : sym ≤ 255
    · rw [if_pos h255]
      simp only
      rw [decode_fixed9 (sym - 144 + 400) rest (by omega) (by omega),
        show 144 + (sym - 144 + 400 - 400) = sym from by omega]
    · rw [if_neg h255]
      by_cases h279 : sym ≤ 279
      · rw [if_pos h279]
        simp only
        rw [decode_fixed7 (sym - 256) rest (by omega),
          show 256 + (sym - 256) = sym from by omega]
      · rw [if_neg h279]
        simp only
        rw [decode_fixed8 (sym - 280 + 192) rest (by omega) (by omega),
          if_neg (by omega : ¬ sym - 280 + 192 ≤ 191),
          show 280 + (sym - 280 + 192 - 192) = sym from by omega]

/-! ### C1: table scan characterisation -/

/-- Consecutive length-table ranges leave no gap below 258. -/
theorem length_table_chain : ∀ i, i < 28 →
    (length_table.getD (i + 1) (0, 0)).1
      ≤ (length_table.getD i (0, 0)).1 + 2 ^ (length_table.getD i (0, 0)).2 := by
  decide

/-- Consecutive distance-table ranges leave no gap below 32768. -/
theorem distance_table_chain : ∀ i, i < 29 →
    (distance_table.getD (i + 1) (0, 0)).1
      ≤ (distance_table.getD i (0, 0)).1 + 2 ^ (distance_table.getD i (0, 0)).2 := by
  decide

/-- Every length-table entry has at most 5 extra bits. -/
theorem length_table_extra_le : ∀ j, j < 29 → (length_table.getD j (0, 0)).2 ≤ 5 := by
  decide

/-- Every distance-table entry has at most 13 extra bits. -/
theorem distance_table_extra_le : ∀ j, j < 30 → (distance_table.getD j (0, 0)).2 ≤ 13 := by
  decide

/-- The length scan started at any in-range entry finds a valid encoding. -/
theorem length_code_scan_spec : ∀ (fuel i len : ℕ), 29 - i ≤ fuel → i < 29 →
    (length_table.getD i (0, 0)).1 ≤ len → len ≤ 258 →
    lengthP len (length_code_scan len i) := by
  intro fuel
  induction fuel with
  | zero =>
    intro i len hfuel hi _ _
    omega
  | succ fuel ih =>
    intro i len hfuel hi hlo hhi
    rw [length_code_scan, dif_pos hi]
    dsimp only
    have hp : 1 ≤ 2 ^ (length_table.getD i (0, 0)).2 := Nat.one_le_two_pow
    by_cases hc : (length_table.getD i (0, 0)).1 ≤ len ∧
        len ≤ (length_table.getD i (0, 0)).1 + 2 ^ (length_table.getD i (0, 0)).2 - 1
    · rw [if_pos hc]
      unfold lengthP
      dsimp only
      rw [show i + 257 - 257 = i from by omega]
      refine ⟨by omega, by omega, rfl, ?_, ?_⟩
      · by_cases h2 : 0 < (length_table.getD i (0, 0)).2
        · rw [if_pos h2]
          omega
        · rw [if_neg h2]
          omega
      · by_cases h2 : 0 < (length_table.getD i (0, 0)).2
        · rw [if_pos h2]
          omega
        · rw [if_neg h2]
          have h20 : (length_table.getD i (0, 0)).2 = 0 := by omega
          have hone : (2 : ℕ) ^ (length_table.getD i (0, 0)).2 = 1 := by
            rw [h20, pow_zero]
          omega
    · rw [if_neg hc]
      have hlen : (length_table.getD i (0, 0)).1 + 2 ^ (length_table.getD i (0, 0)).2
          ≤ len := by
        rcases Decidable.not_and_iff_or_not.mp hc with h | h
        · omega
        · omega
      by_cases hi28 : i < 28
      · have hch := length_table_chain i hi28
        exact ih (i + 1) len (by omega) (by omega) (by omega) hhi
      · have hi' : i = 28 := by omega
        subst hi'
        have he28 : length_table.getD 28 (0, 0) = (258, 0) := by decide
        rw [he28] at hlen
        simp only [pow_zero] at hlen
        omega

/-- The distance scan started at any in-range entry finds a valid
encoding. -/
theorem distance_code_scan_spec : ∀ (fuel i dist : ℕ), 30 - i ≤ fuel → i < 30 →
    (distance_table.getD i (0, 0)).1 ≤ dist → dist ≤ 32768 →
    distP dist (distance_code_scan dist i) := by
  intro fuel
  induction fuel with
  | zero =>
    intro i dist hfuel hi _ _
    omega
  | succ fuel ih =>
    intro i dist hfuel hi hlo hhi
    rw [distance_code_scan, dif_pos hi]
    dsimp only
    have hp : 1 ≤ 2 ^ (distance_table.getD i (0, 0)).2 := Nat.one_le_two_pow
    by_cases hc : (distance_table.getD i (0, 0)).1 ≤ dist ∧
        dist ≤ (distance_table.getD i (0, 0)).1 + 2 ^ (distance_table.getD i (0, 0)).2 - 1
    · rw [if_pos hc]
      unfold distP
      dsimp only
      refine ⟨by omega, rfl, ?_, ?_⟩
      · by_cases h2 : 0 < (distance_table.getD i (0, 0)).2
        · rw [if_pos h2]
          omega
        · rw [if_neg h2]
          omega
      · by_cases h2 : 0 < (distance_table.getD i (0, 0)).2
        · rw [if_pos h2]
          omega
        · rw [if_neg h2]
          have h20 : (distance_table.getD i (0, 0)).2 = 0 := by omega
          have hone : (2 : ℕ) ^ (distance_table.getD i (0, 0)).2 = 1 := by
            rw [h20, pow_zero]
          omega
    · rw [if_neg hc]
      have hlen : (distance_table.getD i (0, 0)).1 + 2 ^ (distance_table.getD i (0, 0)).2
          ≤ dist := by
        rcases Decidable.not_and_iff_or_not.mp hc with h | h
        · omega
        · omega
      by_cases hi29 : i < 29
      · have hch := distance_table_chain i hi29
        exact ih (i + 1) dist (by omega) (by omega) (by omega) hhi
      · have hi' : i = 29 := by omega
        subst hi'
        have he29 : distance_table.getD 29 (0, 0) = (24577, 13) := by decide
        rw [he29] at hlen
        norm_num at hlen
        omega

/-- The scan `deflate_compress_fixed` performs on a match length. -/
theorem length_scan_spec (len : ℕ) (h3 : 3 ≤ len) (h258 : len ≤ 258) :
    lengthP len (length_code_scan len 0) := by
  apply length_code_scan_spec 29 0 len (by omega) (by omega) ?_ h258
  have h0 : (length_table.getD 0 (0, 0)).1 = 3 := by decide
  omega

/-- The scan `deflate_compress_fixed` performs on a match distance. -/
theorem distance_scan_spec (dist : ℕ) (h1 : 1 ≤ dist) (h32 : dist ≤ 32768) :
    distP dist (distance_code_scan dist 0) := by
  apply distance_code_scan_spec 30 0 dist (by omega) (by omega) ?_ h32
  have h0 : (distance_table.getD 0 (0, 0)).1 = 1 := by decide
  omega

/-! ### C1: soundness of the match finder -/

/-- The inner `find_match` loop extends a verified match and never runs
past the data or the 258-byte cap. -/
theorem matchLen_spec : ∀ (fuel : ℕ) (data : List ℕ) (i pos len : ℕ), 258 - len ≤ fuel →
    len ≤ 258 → pos + len ≤ data.length →
    (∀ k, k < len → data.getD (i + k) 0 = data.getD (pos + k) 0) →
    matchLen data i pos len ≤ 258 ∧
    pos + matchLen data i pos len ≤ data.length ∧
    len ≤ matchLen data i pos len ∧
    ∀ k, k < matchLen data i pos len → data.getD (i + k) 0 = data.getD (pos + k) 0 := by
  intro fuel
  induction fuel with
  | zero =>
    intro data i pos len hfuel h258 hlen hmatch
    have hstop : ¬(pos + len < data.length ∧
        data.getD (i + len) 0 = data.getD (pos + len) 0 ∧ len < 258) := by
      intro h
      omega
    rw [matchLen, if_neg hstop]
    exact ⟨h258, hlen, le_refl _, hmatch⟩
  | succ fuel ih =>
    intro data i pos len hfuel h258 hlen hmatch
    rw [matchLen]
    by_cases hcond : pos + len < data.length ∧
        data.getD (i + len) 0 = data.getD (pos + len) 0 ∧ len < 258
    · rw [if_pos hcond]
      have hext : ∀ k, k < len + 1 → data.getD (i + k) 0 = data.getD (pos + k) 0 := by
        intro k hk
        by_cases hkl : k < len
        · exact hmatch k hkl
        · have hke : k = len := by omega
          subst hke
          exact hcond.2.1
      have hrec := ih data i pos (len + 1) (by omega) (by omega) (by omega) hext
      exact ⟨hrec.1, hrec.2.1, by omega, hrec.2.2.2⟩
    · rw [if_neg hcond]
      exact ⟨h258, hlen, le_refl _, hmatch⟩

/-- The candidate loop of `find_match` only ever returns verified
back-references (or the untouched initial pair). -/
theorem findLoop_spec : ∀ (fuel : ℕ) (data : List ℕ) (pos i bl bd : ℕ),
    pos - i ≤ fuel → pos ≤ i + 32768 → pos ≤ data.length →
    (3 ≤ bl → goodMatch data pos bl bd) →
    3 ≤ (findLoop data pos i bl bd).1 →
    goodMatch data pos (findLoop data pos i bl bd).1 (findLoop data pos i bl bd).2 := by
  intro fuel
  induction fuel with
  | zero =>
    intro data pos i bl bd hfuel hwin hpos hinv
    rw [findLoop, dif_neg (by omega : ¬ i < pos)]
    exact hinv
  | succ fuel ih =>
    intro data pos i bl bd hfuel hwin hpos hinv
    rw [findLoop]
    by_cases hi : i < pos
    · rw [dif_pos hi]
      by_cases hne : data.getD i 0 ≠ data.getD pos 0
      · rw [if_pos hne]
        exact ih data pos (i + 1) bl bd (by omega) (by omega) hpos hinv
      · rw [if_neg hne]
        dsimp only
        have hml := matchLen_spec 258 data i pos 0 (by omega) (by omega) (by omega)
          (by intro k hk; omega)
        have hgood : 3 ≤ matchLen data i pos 0 →
            goodMatch data pos (matchLen data i pos 0) (pos - i) := by
          intro h3
          refine ⟨h3, hml.1, by omega, by omega, by omega, hml.2.1, ?_⟩
          intro k hk
          rw [show pos - (pos - i) + k = i + k from by omega]
          exact hml.2.2.2 k hk
        by_cases hbetter : 3 ≤ matchLen data i pos 0 ∧ bl < matchLen data i pos 0
        · rw [if_pos hbetter]
          by_cases h258 : matchLen data i pos 0 = 258
          · rw [if_pos h258]
            intro _
            exact hgood hbetter.1
          · rw [if_neg h258]
            exact ih data pos (i + 1) (matchLen data i pos 0) (pos - i)
              (by omega) (by omega) hpos (fun _ => hgood hbetter.1)
        · rw [if_neg hbetter]
          exact ih data pos (i + 1) bl bd (by omega) (by omega) hpos hinv
    · rw [dif_neg hi]
      exact hinv

/-- Soundness of `find_match`: a returned (distance, length) pair is a
verified back-reference into the window. -/
theorem find_match_sound (data : List ℕ) (pos dist len : ℕ)
    (h : find_match data pos = some (dist, len)) : goodMatch data pos len dist := by
  unfold find_match at h
  split at h
  · exact absurd h (by simp)
  · dsimp only at h
    have hws : pos ≤ (if 32768 < pos then pos - 32768 else 0) + 32768 := by
      split
      · omega
      · omega
    set ws := if 32768 < pos then pos - 32768 else 0 with hwsdef
    split at h
    · simp only [Option.some.injEq, Prod.mk.injEq] at h
      obtain ⟨h1, h2⟩ := h
      subst h1
      subst h2
      exact findLoop_spec pos data pos ws 0 0 (by omega) hws (by omega)
        (fun h3 => absurd h3 (by omega)) (by assumption)
    · exact absurd h (by simp)

/-! ### C1: replaying back-references -/

/-- `getD` inside the taken prefix reads the original list. -/
theorem getD_take (l : List ℕ) (n m : ℕ) (h : m < n) :
    (l.take n).getD m 0 = l.getD m 0 := by
  rw [List.getD_eq_getElem?_getD, List.getD_eq_getElem?_getD, List.getElem?_take, if_pos h]

/-- Extending a taken prefix by the next element. -/
theorem take_succ_getD (l : List ℕ) (n : ℕ) (h : n < l.length) :
    l.take n ++ [l.getD n 0] = l.take (n + 1) := by
  rw [List.take_succ, List.getElem?_eq_getElem h,
    List.getD_eq_getElem?_getD, List.getElem?_eq_getElem h]
  rfl

/-- A `getD` read at a valid index satisfies any bound all members do. -/
theorem getD_lt_of_forall (l : List ℕ) (n : ℕ) (h : n < l.length)
    (hb : ∀ b ∈ l, b < 256) : l.getD n 0 < 256 := by
  rw [List.getD_eq_getElem?_getD, List.getElem?_eq_getElem h]
  exact hb _ (List.getElem_mem h)

/-- Replaying a verified back-reference over the already-decoded prefix
reproduces the next `len` source bytes, including the overlapped case. -/
theorem lz_copy_take : ∀ (len : ℕ) (data : List ℕ) (pos dist : ℕ),
    1 ≤ dist → dist ≤ pos → pos + len ≤ data.length →
    (∀ k, k < len → data.getD (pos - dist + k) 0 = data.getD (pos + k) 0) →
    lz_copy (data.take pos) dist len = data.take (pos + len) := by
  intro len
  induction len with
  | zero =>
    intro data pos dist _ _ _ _
    rw [show pos + 0 = pos from rfl]
    rfl
  | succ len ih =>
    intro data pos dist h1 h2 hlen hmatch
    rw [lz_copy]
    have hplen : pos < data.length := by omega
    have hlentake : (data.take pos).length = pos := by
      rw [List.length_take]
      omega
    have hsrc : (data.take pos).getD ((data.take pos).length - dist) 0
        = data.getD pos 0 := by
      rw [hlentake, getD_take data pos (pos - dist) (by omega)]
      have := hmatch 0 (by omega)
      simpa using this
    rw [hsrc, take_succ_getD data pos hplen]
    rw [show pos + (len + 1) = (pos + 1) + len from by omega]
    apply ih data (pos + 1) dist h1 (by omega) (by omega)
    intro k hk
    have hs := hmatch (k + 1) (by omega)
    rw [show pos - dist + (k + 1) = pos + 1 - dist + k from by omega] at hs
    rw [show pos + (k + 1) = pos + 1 + k from by omega] at hs
    exact hs

/-! ### C1: unfolding lemmas for the token loops -/

/-- A vacuous extra-bit field is the empty bit string. -/
theorem if_natBits (v n : ℕ) : (if 0 < n then natBits v n else []) = natBits v n := by
  cases n with
  | zero => rfl
  | succ n => rw [if_pos (Nat.succ_pos n)]

/-- The compressor loop stops at the end of the input. -/
theorem deflateLoop_end (data : List ℕ) (pos : ℕ) (st : BitBuffer)
    (h : ¬ pos < data.length) : deflateLoop data pos st = st := by
  rw [deflateLoop, dif_neg h]

/-- The emitted stream ends with the input. -/
theorem emitBits_end (data : List ℕ) (pos : ℕ)
    (h : ¬ pos < data.length) : emitBits data pos = [] := by
  rw [emitBits, dif_neg h]

/-- One literal step of the compressor loop. -/
theorem deflateLoop_lit (data : List ℕ) (pos : ℕ) (st : BitBuffer)
    (hpos : pos < data.length) (hm : find_match data pos = none) :
    deflateLoop data pos st = deflateLoop data (pos + 1)
      (write_bits st
        (reverse_bits (fixed_literal_length_code (data.getD pos 0)).1
          (fixed_literal_length_code (data.getD pos 0)).2)
        (fixed_literal_length_code (data.getD pos 0)).2) := by
  rw [deflateLoop, dif_pos hpos]
  split
  case h_1 d l heq =>
    rw [hm] at heq
    simp at heq
  case h_2 heq =>
    rfl

/-- One back-reference step of the compressor loop. -/
theorem deflateLoop_match (data : List ℕ) (pos : ℕ) (st : BitBuffer) (dist len : ℕ)
    (hpos : pos < data.length) (hm : find_match data pos = some (dist, len)) :
    deflateLoop data pos st = deflateLoop data (pos + len)
      (let lc := length_code_scan len 0
       let code := fixed_literal_length_code lc.1
       let st1 := write_bits st (reverse_bits code.1 code.2) code.2
       let st2 := if 0 < lc.2.1 then write_bits st1 lc.2.2 lc.2.1 else st1
       let dc := distance_code_scan dist 0
       let dcode := fixed_distance_code dc.1
       let st3 := write_bits st2 (reverse_bits dcode.1 dcode.2) dcode.2
       if 0 < dc.2.1 then write_bits st3 dc.2.2 dc.2.1 else st3) := by
  rw [deflateLoop, dif_pos hpos]
  split
  case h_1 d l heq =>
    rw [hm] at heq
    simp only [Option.some.injEq, Prod.mk.injEq] at heq
    obtain ⟨h1, h2⟩ := heq
    subst h1
    subst h2
    rfl
  case h_2 heq =>
    rw [hm] at heq
    simp at heq

/-- One literal token of the emitted stream. -/
theorem emitBits_lit (data : List ℕ) (pos : ℕ)
    (hpos : pos < data.length) (hm : find_match data pos = none) :
    emitBits data pos =
      msbBits (fixed_literal_length_code (data.getD pos 0)).1
          (fixed_literal_length_code (data.getD pos 0)).2 ++
        emitBits data (pos + 1) := by
  rw [emitBits, dif_pos hpos]
  split
  case h_1 d l heq =>
    rw [hm] at heq
    simp at heq
  case h_2 heq =>
    rfl

/-- One back-reference token of the emitted stream, with the vacuous
extra-bit conditionals already removed. -/
theorem emitBits_match (data : List ℕ) (pos dist len : ℕ)
    (hpos : pos < data.length) (hm : find_match data pos = some (dist, len)) :
    emitBits data pos =
      (msbBits (fixed_literal_length_code (length_code_scan len 0).1).1
          (fixed_literal_length_code (length_code_scan len 0).1).2 ++
        natBits (length_code_scan len 0).2.2 (length_code_scan len 0).2.1 ++
        msbBits (fixed_distance_code (distance_code_scan dist 0).1).1
          (fixed_distance_code (distance_code_scan dist 0).1).2 ++
        natBits (distance_code_scan dist 0).2.2 (distance_code_scan dist 0).2.1) ++
      emitBits data (pos + len) := by
  rw [emitBits, dif_pos hpos]
  split
  case h_1 d l heq =>
    rw [hm] at heq
    simp only [Option.some.injEq, Prod.mk.injEq] at heq
    obtain ⟨h1, h2⟩ := heq
    subst h1
    subst h2
    dsimp only
    rw [if_natBits, if_natBits]
  case h_2 heq =>
    rw [hm] at heq
    simp at heq

/-- The decoder returns the accumulated output at the end-of-block
symbol. -/
theorem inflate_symbols_eob (fuel : ℕ) (bits r : List Bool) (out : List ℕ)
    (h : decode_lit_len bits = some (256, r)) :
    inflate_symbols (fuel + 1) bits out = some out := by
  show inflate_step (inflate_symbols fuel) bits out = some out
  rw [inflate_step, h]
  dsimp only
  rw [if_pos rfl]

/-- The decoder appends a literal and continues. -/
theorem inflate_symbols_lit (fuel : ℕ) (bits r : List Bool) (out : List ℕ) (sym : ℕ)
    (h : decode_lit_len bits = some (sym, r)) (hs : sym < 256) :
    inflate_symbols (fuel + 1) bits out = inflate_symbols fuel r (out ++ [sym]) := by
  show inflate_step (inflate_symbols fuel) bits out = _
  rw [inflate_step, h]
  dsimp only
  rw [if_neg (by omega), if_pos hs]

/-- The decoder replays one back-reference and continues. -/
theorem inflate_symbols_len (fuel : ℕ) (bits r1 r2 r3 r4 : List Bool) (out : List ℕ)
    (sym ev dcode dev : ℕ)
    (h1 : decode_lit_len bits = some (sym, r1)) (h257 : 257 ≤ sym)
    (h29 : sym - 257 < 29)
    (h2 : readLSB (length_table.getD (sym - 257) (0, 0)).2 r1 = some (ev, r2))
    (h3 : readMSB 5 0 r2 = some (dcode, r3)) (h30 : dcode < 30)
    (h4 : readLSB (distance_table.getD dcode (0, 0)).2 r3 = some (dev, r4))
    (hd : 0 < (distance_table.getD dcode (0, 0)).1 + dev ∧
      (distance_table.getD dcode (0, 0)).1 + dev ≤ out.length) :
    inflate_symbols (fuel + 1) bits out
      = inflate_symbols fuel r4 (lz_copy out ((distance_table.getD dcode (0, 0)).1 + dev)
          ((length_table.getD (sym - 257) (0, 0)).1 + ev)) := by
  show inflate_step (inflate_symbols fuel) bits out = _
  rw [inflate_step, h1]
  dsimp only
  rw [if_neg (by omega), if_neg (by omega), if_pos h29]
  try dsimp only
  rw [h2]
  try dsimp only
  rw [h3]
  try dsimp only
  rw [if_pos h30]
  try dsimp only
  rw [h4]
  try dsimp only
  rw [if_pos hd]

/-! ### C1: the compressor writes exactly the token stream -/

/-- Every fixed literal/length code is 7 to 9 bits wide. -/
theorem flc_snd_bounds (i : ℕ) : 7 ≤ (fixed_literal_length_code i).2 ∧
    (fixed_literal_length_code i).2 ≤ 9 := by
  unfold fixed_literal_length_code
  split_ifs <;> dsimp only <;> omega

/-- A conditional extra-bit write still appends exactly the field. -/
theorem write_bits_if_spec (st : BitBuffer) (bits count : ℕ) (hwf : bitbufWF st)
    (hb : bits < 2 ^ count) (hcount : count ≤ 16) :
    bitsOfBuf (if 0 < count then write_bits st bits count else st)
      = bitsOfBuf st ++ natBits bits count ∧
    bitbufWF (if 0 < count then write_bits st bits count else st) := by
  by_cases h : 0 < count
  · rw [if_pos h]
    exact write_bits_spec st bits count hwf hb hcount
  · rw [if_neg h]
    have hc0 : count = 0 := by omega
    subst hc0
    exact ⟨by simp [natBits], hwf⟩

/-- The compressor loop appends exactly the token stream `emitBits` to the
bit writer, preserving its invariant. -/
theorem deflateLoop_bits : ∀ (fuel : ℕ) (data : List ℕ) (pos : ℕ) (st : BitBuffer),
    data.length - pos ≤ fuel → bitbufWF st →
    bitsOfBuf (deflateLoop data pos st) = bitsOfBuf st ++ emitBits data pos ∧
    bitbufWF (deflateLoop data pos st) := by
  intro fuel
  induction fuel with
  | zero =>
    intro data pos st hfuel hwf
    have hpos : ¬ pos < data.length := by omega
    rw [deflateLoop_end data pos st hpos, emitBits_end data pos hpos]
    exact ⟨by simp, hwf⟩
  | succ fuel ih =>
    intro data pos st hfuel hwf
    by_cases hpos : pos < data.length
    · cases hm : find_match data pos with
      | none =>
        rw [deflateLoop_lit data pos st hpos hm, emitBits_lit data pos hpos hm]
        have hb := flc_snd_bounds (data.getD pos 0)
        have hw := write_bits_spec st
          (reverse_bits (fixed_literal_length_code (data.getD pos 0)).1
            (fixed_literal_length_code (data.getD pos 0)).2)
          (fixed_literal_length_code (data.getD pos 0)).2 hwf
          (reverse_bits_lt _ _) (by omega)
        have hrec := ih data (pos + 1) _ (by omega) hw.2
        refine ⟨?_, hrec.2⟩
        rw [hrec.1, hw.1, natBits_reverse_bits, List.append_assoc]
      | some p =>
        obtain ⟨dist, len⟩ := p
        have hgm := find_match_sound data pos dist len hm
        obtain ⟨hl3, hl258, hd1, hdp, hd32, hplen, hmatch⟩ := hgm
        obtain ⟨hc1, hc2, hce, hcv, hcb⟩ := length_scan_spec len hl3 hl258
        obtain ⟨hq1, hqe, hqv, hqb⟩ := distance_scan_spec dist hd1 hd32
        rw [deflateLoop_match data pos st dist len hpos hm,
          emitBits_match data pos dist len hpos hm]
        dsimp only
        have hw1 := write_bits_spec st
          (reverse_bits (fixed_literal_length_code (length_code_scan len 0).1).1
            (fixed_literal_length_code (length_code_scan len 0).1).2)
          (fixed_literal_length_code (length_code_scan len 0).1).2 hwf
          (reverse_bits_lt _ _)
          (by have := flc_snd_bounds (length_code_scan len 0).1; omega)
        have hw2 := write_bits_if_spec _ (length_code_scan len 0).2.2
          (length_code_scan len 0).2.1 hw1.2 hcv
          (by
            have := length_table_extra_le ((length_code_scan len 0).1 - 257) (by omega)
            omega)
        have hw3 := write_bits_spec _
          (reverse_bits (fixed_distance_code (distance_code_scan dist 0).1).1
            (fixed_distance_code (distance_code_scan dist 0).1).2)
          (fixed_distance_code (distance_code_scan dist 0).1).2 hw2.2
          (reverse_bits_lt _ _) (by norm_num [fixed_distance_code])
        have hw4 := write_bits_if_spec _ (distance_code_scan dist 0).2.2
          (distance_code_scan dist 0).2.1 hw3.2 hqv
          (by
            have := distance_table_extra_le (distance_code_scan dist 0).1 (by omega)
            omega)
        have hrec := ih data (pos + len) _ (by omega) hw4.2
        refine ⟨?_, hrec.2⟩
        rw [hrec.1, hw4.1, hw3.1, hw2.1, hw1.1]
        simp only [natBits_reverse_bits, List.append_assoc]
    · rw [deflateLoop_end data pos st hpos, emitBits_end data pos hpos]
      exact ⟨by simp, hwf⟩

/-! ### C1: decoding the emitted stream -/

/-- An LSB-first extra-bit field has as many bits as its width. -/
theorem natBits_length (v n : ℕ) : (natBits v n).length = n := by
  induction n generalizing v with
  | zero => rfl
  | succ n ih => simp [natBits, ih]

/-- Decoding the token stream of `deflate_compress_fixed` from any
position, followed by the end-of-block code, recovers the whole input. -/
theorem inflate_emit : ∀ (fuel : ℕ) (data : List ℕ) (pos : ℕ) (tail : List Bool),
    (emitBits data pos ++ (msbBits 0 7 ++ tail)).length ≤ fuel →
    pos ≤ data.length → (∀ b ∈ data, b < 256) →
    inflate_symbols fuel (emitBits data pos ++ (msbBits 0 7 ++ tail)) (data.take pos)
      = some data := by
  intro fuel
  induction fuel with
  | zero =>
    intro data pos tail hfuel hpos hbytes
    exfalso
    have hlen : (emitBits data pos ++ (msbBits 0 7 ++ tail)).length
        = (emitBits data pos).length + (7 + tail.length) := by
      simp [msbBits_length]
    omega
  | succ fuel ih =>
    intro data pos tail hfuel hpos hbytes
    by_cases hpd : pos < data.length
    · cases hm : find_match data pos with
      | none =>
        have hb : data.getD pos 0 < 256 := getD_lt_of_forall data pos hpd hbytes
        have hL : (emitBits data pos ++ (msbBits 0 7 ++ tail)).length
            = (fixed_literal_length_code (data.getD pos 0)).2
              + (emitBits data (pos + 1) ++ (msbBits 0 7 ++ tail)).length := by
          rw [emitBits_lit data pos hpd hm]
          simp [msbBits_length]
        have h7 := flc_snd_bounds (data.getD pos 0)
        rw [emitBits_lit data pos hpd hm, List.append_assoc]
        have hdec := decode_fixed_sym (data.getD pos 0)
          (emitBits data (pos + 1) ++ (msbBits 0 7 ++ tail)) (by omega)
        rw [inflate_symbols_lit fuel _ _ _ _ hdec (by omega),
          take_succ_getD data pos hpd]
        exact ih data (pos + 1) tail (by omega) (by omega) hbytes
      | some p =>
        obtain ⟨dist, len⟩ := p
        obtain ⟨hl3, hl258, hd1, hdp, hd32, hplen, hmatch⟩ :=
          find_match_sound data pos dist len hm
        obtain ⟨hc1, hc2, hce, hcv, hcb⟩ := length_scan_spec len hl3 hl258
        obtain ⟨hq1, hqe, hqv, hqb⟩ := distance_scan_spec dist hd1 hd32
        have hL : (emitBits data pos ++ (msbBits 0 7 ++ tail)).length
            = (fixed_literal_length_code (length_code_scan len 0).1).2
              + (length_code_scan len 0).2.1 + 5 + (distance_code_scan dist 0).2.1
              + (emitBits data (pos + len) ++ (msbBits 0 7 ++ tail)).length := by
          rw [emitBits_match data pos dist len hpd hm]
          simp [msbBits_length, natBits_length, fixed_distance_code]
          omega
        have h7 := flc_snd_bounds (length_code_scan len 0).1
        rw [emitBits_match data pos dist len hpd hm]
        dsimp only [fixed_distance_code]
        simp only [List.append_assoc]
        have hdec := decode_fixed_sym (length_code_scan len 0).1
          (natBits (length_code_scan len 0).2.2 (length_code_scan len 0).2.1 ++
            (msbBits (distance_code_scan dist 0).1 5 ++
              (natBits (distance_code_scan dist 0).2.2 (distance_code_scan dist 0).2.1 ++
                (emitBits data (pos + len) ++ (msbBits 0 7 ++ tail)))))
          (by omega)
        have h2 : readLSB (length_table.getD ((length_code_scan len 0).1 - 257) (0, 0)).2
            (natBits (length_code_scan len 0).2.2 (length_code_scan len 0).2.1 ++
              (msbBits (distance_code_scan dist 0).1 5 ++
                (natBits (distance_code_scan dist 0).2.2 (distance_code_scan dist 0).2.1 ++
                  (emitBits data (pos + len) ++ (msbBits 0 7 ++ tail)))))
            = some ((length_code_scan len 0).2.2,
                msbBits (distance_code_scan dist 0).1 5 ++
                  (natBits (distance_code_scan dist 0).2.2 (distance_code_scan dist 0).2.1 ++
                    (emitBits data (pos + len) ++ (msbBits 0 7 ++ tail)))) := by
          rw [hce]
          exact readLSB_natBits _ _ _ hcv
        have h3 := readMSB_msbBits 5 (distance_code_scan dist 0).1
          (natBits (distance_code_scan dist 0).2.2 (distance_code_scan dist 0).2.1 ++
            (emitBits data (pos + len) ++ (msbBits 0 7 ++ tail)))
          (by omega)
        have h4 : readLSB (distance_table.getD (distance_code_scan dist 0).1 (0, 0)).2
            (natBits (distance_code_scan dist 0).2.2 (distance_code_scan dist 0).2.1 ++
              (emitBits data (pos + len) ++ (msbBits 0 7 ++ tail)))
            = some ((distance_code_scan dist 0).2.2,
                emitBits data (pos + len) ++ (msbBits 0 7 ++ tail)) := by
          rw [hqe]
          exact readLSB_natBits _ _ _ hqv
        have htl : (data.take pos).length = pos := by
          rw [List.length_take]
          omega
        have hd : 0 < (distance_table.getD (distance_code_scan dist 0).1 (0, 0)).1
              + (distance_code_scan dist 0).2.2 ∧
            (distance_table.getD (distance_code_scan dist 0).1 (0, 0)).1
              + (distance_code_scan dist 0).2.2 ≤ (data.take pos).length := by
          constructor
          · omega
          · omega
        have hstep := inflate_symbols_len fuel _ _ _ _ _ _ _ _ _ _ hdec
          (by omega) (by omega) h2 h3 (by omega) h4 hd
        rw [hstep, hqb, hcb, lz_copy_take len data pos dist hd1 hdp hplen hmatch]
        exact ih data (pos + len) tail (by omega) (by omega) hbytes
    · rw [emitBits_end data pos hpd, List.nil_append]
      have hdec := decode_fixed7 0 tail (by omega)
      rw [show (256 + 0 : ℕ) = 256 from rfl] at hdec
      rw [inflate_symbols_eob fuel _ tail _ hdec,
        List.take_of_length_le (by omega)]

/-! ### C1: the round trip -/

/-- A stream whose first three bits are 1, 1, 0 passes the BFINAL = 1,
BTYPE = 01 header check and hands the rest to the fixed-block decoder. -/
theorem inflate_fixed_header (bytes : List ℕ) (r : List Bool)
    (h : bytesBits bytes = true :: true :: false :: r) :
    inflate bytes = inflate_symbols r.length r [] := by
  unfold inflate
  rw [h]
  rfl

/-- C1: for every byte buffer, running `deflate_compress_fixed` and then
inflating the resulting bit stream with a standard DEFLATE inflater
(one final fixed-Huffman block) reproduces the original bytes exactly. -/
theorem c1_deflate_roundtrip (data : List ℕ) (hbytes : ∀ b ∈ data, b < 256) :
    inflate (deflate_compress_fixed data).bytes = some data := by
  have hwf0 : bitbufWF ⟨[], 0, 0⟩ := ⟨by norm_num, by norm_num⟩
  have hw1 := write_bits_spec ⟨[], 0, 0⟩ 3 3 hwf0 (by norm_num) (by norm_num)
  have hdl := deflateLoop_bits data.length data 0 (write_bits ⟨[], 0, 0⟩ 3 3)
    (by omega) hw1.2
  have hw2 := write_bits_spec (deflateLoop data 0 (write_bits ⟨[], 0, 0⟩ 3 3))
    (reverse_bits (fixed_literal_length_code 256).1 (fixed_literal_length_code 256).2)
    (fixed_literal_length_code 256).2 hdl.2 (reverse_bits_lt _ _)
    (by have := flc_snd_bounds 256; omega)
  have hfl := flush_bit_buffer_spec _ hw2.2
  obtain ⟨padn, hstream⟩ : ∃ padn, bytesBits (deflate_compress_fixed data).bytes
      = true :: true :: false ::
        (emitBits data 0 ++ (msbBits 0 7 ++ List.replicate padn false)) := by
    refine ⟨if 0 < (write_bits (deflateLoop data 0 (write_bits ⟨[], 0, 0⟩ 3 3))
        (reverse_bits (fixed_literal_length_code 256).1 (fixed_literal_length_code 256).2)
        (fixed_literal_length_code 256).2).bit_count then
      8 - (write_bits (deflateLoop data 0 (write_bits ⟨[], 0, 0⟩ 3 3))
        (reverse_bits (fixed_literal_length_code 256).1 (fixed_literal_length_code 256).2)
        (fixed_literal_length_code 256).2).bit_count else 0, ?_⟩
    unfold deflate_compress_fixed
    dsimp only
    rw [hfl, hw2.1, hdl.1, hw1.1, natBits_reverse_bits,
      show fixed_literal_length_code 256 = (0, 7) from rfl,
      show bitsOfBuf ⟨[], 0, 0⟩ = [] from rfl,
      show natBits 3 3 = [true, true, false] from rfl]
    simp only [List.append_assoc, List.nil_append]
    rfl
  rw [inflate_fixed_header (deflate_compress_fixed data).bytes _ hstream]
  exact inflate_emit _ data 0 (List.replicate padn false) (le_refl _) (by omega) hbytes

/-- Witness for C1 at a concrete repetitive buffer. -/
theorem c1_deflate_roundtrip_witness :
    (∀ b ∈ ([10, 20, 10] : List ℕ), b < 256) ∧
    inflate (deflate_compress_fixed [10, 20, 10]).bytes = some [10, 20, 10] :=
  ⟨by decide, c1_deflate_roundtrip [10, 20, 10] (by decide)⟩

end Plotz
